import Mathlib

/-!
Verification development for the VastuAi retrieval-and-grounding pipeline.

The definitions below are shallow embeddings of the Python sources:
* `src/src/ingestion/regex_parser.py`  — heading matcher (`RegexParser`)
* `src/src/ingestion/chunker.py`      — chunk extractor (`LalKitabChunker`)
* `src/src/calculation/horoscope.py`  — chart calculator (`HoroscopeCalculator`)
* `src/src/calculation/house_system.py` — chart model (`LalKitabHouseSystem`)
* `src/src/retrieval/pinecone_client.py` — rule store client (`PineconeClient`)
* `src/app.py`                         — conversational gate (`process_user_message`)

Python strings are modelled as `List Char` (indices = character offsets, as in
Python), machine floats carrying degree values as `ℚ`, dictionaries as
association lists in insertion order, and fallible external calls as
`Except`-valued oracles passed in as parameters.
-/

namespace VastuAi

/-! ## Character classes (ASCII model of Python's `\s`, `\d`, IGNORECASE) -/

/-- ASCII case folding used by `re.IGNORECASE`: the code of the character with
uppercase letters mapped to lowercase. -/
def lowNat (c : Char) : Nat :=
  if 65 ≤ c.toNat ∧ c.toNat ≤ 90 then c.toNat + 32 else c.toNat

/-- Case-insensitive character equality (Python `re.IGNORECASE` on ASCII). -/
def lowerEq (a b : Char) : Bool := lowNat a == lowNat b

/-- Python's `\s` class (and `str.strip()` whitespace) on ASCII:
space, `\t`, `\n`, `\r`, `\x0b`, `\x0c`. -/
def pySpace (c : Char) : Bool :=
  c.toNat == 32 || c.toNat == 9 || c.toNat == 10 ||
  c.toNat == 13 || c.toNat == 11 || c.toNat == 12

/-- Python's `\d` class on ASCII: `'0'..'9'`. -/
def pyDigit (c : Char) : Bool := 48 ≤ c.toNat && c.toNat ≤ 57

/-- Value of a decimal digit string, as Python's `int` on a digit string. -/
def digitsVal (l : List Char) : Nat :=
  l.foldl (fun a c => 10 * a + (c.toNat - 48)) 0

/-! ## Heading matcher (`RegexParser.find_all_planet_house_headings`)

The compiled pattern is
`^(Sun|Moon|Mars|Mercury|Jupiter|Venus|Saturn|Rahu|Ketu)\s+in\s+(\d+|I)(?:st|nd|rd|th)?\s+[Hh]ouse`
with `re.MULTILINE | re.IGNORECASE`.  Each sub-matcher below consumes from the
front of a `List Char` and returns the rest.  Greedy matching of `\s+` and
`\d+` followed by literals that cannot extend the class is equivalent to
maximal munch, so no backtracking is modelled. -/

/-- Match a literal pattern case-insensitively; returns the remaining input. -/
def matchCI : List Char → List Char → Option (List Char)
  | [], l => some l
  | _ :: _, [] => none
  | p :: ps, c :: cs => if lowerEq p c then matchCI ps cs else none

/-- Match `\s+`: at least one whitespace character, greedily. -/
def ws1 : List Char → Option (List Char)
  | [] => none
  | c :: cs => if pySpace c then some (cs.dropWhile pySpace) else none

/-- Match the ordinal group `(\d+|I)` and return the house number, exactly as
`house = 1 if house_str.upper() == 'I' else int(house_str)` computes it. -/
def matchOrdinal : List Char → Option (Nat × List Char)
  | [] => none
  | c :: cs =>
    if pyDigit c then
      some (digitsVal ((c :: cs).takeWhile pyDigit), (c :: cs).dropWhile pyDigit)
    else if lowerEq 'I' c then some (1, cs)
    else none

/-- Match the optional suffix `(?:st|nd|rd|th)?` (case-insensitive). -/
def ordSuffix : List Char → List Char
  | a :: b :: rest =>
    if (lowerEq 's' a && lowerEq 't' b) || (lowerEq 'n' a && lowerEq 'd' b)
        || (lowerEq 'r' a && lowerEq 'd' b) || (lowerEq 't' a && lowerEq 'h' b)
    then rest else a :: b :: rest
  | l => l

/-- `RegexParser.PLANETS`, in the alternation order of the pattern. -/
def planetNames : List String :=
  ["Sun", "Moon", "Mars", "Mercury", "Jupiter", "Venus", "Saturn", "Rahu", "Ketu"]

/-- Ordered alternation over the planet vocabulary.  The capture
`match.group(1).capitalize()` of a case-insensitive match of a name equals the
canonical name itself, so the canonical name is returned. -/
def matchPlanet : List String → List Char → Option (String × List Char)
  | [], _ => none
  | p :: ps, l =>
    match matchCI p.data l with
    | some r => some (p, r)
    | none => matchPlanet ps l

/-- Attempt the full heading pattern at the current position (which the scan
only ever places at the start of a line, because of `^` with `re.MULTILINE`).
Returns the captured planet, the house number, and the remaining input. -/
def matchHeadingAt (l : List Char) : Option (String × Nat × List Char) := do
  let (p, r1) ← matchPlanet planetNames l
  let r2 ← ws1 r1
  let r3 ← matchCI "in".data r2
  let r4 ← ws1 r3
  let (hse, r5) ← matchOrdinal r4
  let r6 := ordSuffix r5
  let r7 ← ws1 r6
  let r8 ← matchCI "house".data r7
  some (p, hse, r8)

/-- A located heading match: the dictionary built per match in
`find_all_planet_house_headings` (`planet`, `house`, `start_pos`, `end_pos`,
`match_text`). -/
structure Occ where
  planet : String
  house : Nat
  start_pos : Nat
  end_pos : Nat
  match_text : List Char
deriving DecidableEq

/-- Drop through the first `'\n'` (inclusive); returns the number of characters
dropped and the rest.  `finditer` only retries the `^`-anchored pattern at the
next line start, so after a failed attempt (or after a match, which always ends
in a non-newline character) the scan resumes right after the next newline. -/
def dropLine : List Char → Nat × List Char
  | [] => (0, [])
  | c :: cs =>
    if c = '\n' then (1, cs)
    else ((dropLine cs).1 + 1, (dropLine cs).2)

/-- The `finditer` scan.  `l` is the suffix of the document starting at
absolute offset `off`, and `off` is always a line-start position.  The fuel
argument only serves termination; `findHeadings` supplies enough of it. -/
def scanAux : Nat → List Char → Nat → List Occ
  | 0, _, _ => []
  | _ + 1, [], _ => []
  | fuel + 1, a :: l, off =>
    match matchHeadingAt (a :: l) with
    | some (p, h, rest) =>
      let len := (a :: l).length - rest.length
      { planet := p, house := h, start_pos := off, end_pos := off + len,
        match_text := (a :: l).take len } ::
        (let s := dropLine rest
         scanAux fuel s.2 (off + len + s.1))
    | none =>
      let s := dropLine (a :: l)
      scanAux fuel s.2 (off + s.1)

/-- All heading occurrences of a document (core, on `List Char`). -/
def findHeadings (text : List Char) : List Occ :=
  scanAux (text.length + 1) text 0

/-- `RegexParser.find_all_planet_house_headings`. -/
def find_all_planet_house_headings (text : String) : List Occ :=
  findHeadings text.data

/-! ## Chunk extractor (`LalKitabChunker.extract_chunks`) -/

/-- Python slice `text[a:b]`. -/
def slice (text : List Char) (a b : Nat) : List Char := (text.drop a).take (b - a)

/-- Python `str.strip()`: remove leading and trailing whitespace. -/
def pyStrip (l : List Char) : List Char :=
  ((l.dropWhile pySpace).reverse.dropWhile pySpace).reverse

/-- The chunk dictionary built per heading in `extract_chunks`. -/
structure Chunk where
  planet : String
  house : Nat
  heading : List Char
  content : List Char
  char_count : Nat
deriving DecidableEq

/-- The loop body of `extract_chunks`: each heading owns the text from its own
`start_pos` to the next heading's `start_pos`, or to the end of the text for
the last heading; the chunk content is the stripped slice. -/
def chunksAux (text : List Char) : List Occ → List Chunk
  | [] => []
  | h :: rest =>
    let endPos := match rest with
      | [] => text.length
      | h2 :: _ => h2.start_pos
    let ct := pyStrip (slice text h.start_pos endPos)
    { planet := h.planet, house := h.house, heading := h.match_text,
      content := ct, char_count := ct.length } :: chunksAux text rest

/-- `LalKitabChunker.extract_chunks` (core, on `List Char`): find all headings,
return `[]` if there are none, else one chunk per heading. -/
def extract_chunks (text : List Char) : List Chunk :=
  chunksAux text (findHeadings text)

/-- The half-open spans `[start, end)` assigned to the chunks by the loop of
`extract_chunks`, in order. -/
def chunkSpans (text : List Char) : List Occ → List (Nat × Nat)
  | [] => []
  | h :: rest =>
    let endPos := match rest with
      | [] => text.length
      | h2 :: _ => h2.start_pos
    (h.start_pos, endPos) :: chunkSpans text rest

/-! ## Chart calculator (`HoroscopeCalculator`)

Planetary degrees are opaque outputs of the Swiss Ephemeris collaborator; they
are modelled as a function `position : Nat → ℚ` from ephemeris planet id to
sidereal longitude, and the ascendant as a parameter.  Degrees are modelled as
`ℚ` (exact arithmetic in place of the source's machine floats). -/

/-- Swiss Ephemeris planet id for the mean lunar node (`swe.MEAN_NODE`),
used for both Rahu and Ketu in `HoroscopeCalculator.PLANETS`. -/
def MEAN_NODE : Nat := 10

/-- `HoroscopeCalculator.PLANETS`: planet name → ephemeris id, in the
insertion order of the source dictionary.  Sun/Moon/Mercury/Venus/Mars/
Jupiter/Saturn carry the `swisseph` ids 0,1,2,3,4,5,6. -/
def PLANETS : List (String × Nat) :=
  [("Sun", 0), ("Moon", 1), ("Mars", 4), ("Mercury", 2), ("Jupiter", 5),
   ("Venus", 3), ("Saturn", 6), ("Rahu", MEAN_NODE), ("Ketu", MEAN_NODE)]

/-- Python's `%` for a positive modulus, on exact values:
`a - b * floor (a / b)`.  The source computes this on machine doubles, where
the final addition inside CPython's float `%` is rounded; `pymod` is the
exact-arithmetic idealization of that operation, and the float rounding at
the modulus boundary is analyzed separately with `IsDouble` / `RoundsTo`
(see `degree_to_house_float_boundary`). -/
def pymod (a b : ℚ) : ℚ := a - b * ⌊a / b⌋

/-- Python's `int()` truncation toward zero. -/
def pyint (q : ℚ) : ℤ := if 0 ≤ q then ⌊q⌋ else ⌈q⌉

/-- `HoroscopeCalculator.degree_to_house`:
`distance = (planet_degree - ascendant_degree) % 360; house = int(distance / 30) + 1`,
with the float arithmetic of the source idealized as exact rationals.  On the
actual machine doubles the rounded `%` can return the modulus itself and push
the house to 13 (see `degree_to_house_float_boundary`). -/
def degree_to_house (planet_degree ascendant_degree : ℚ) : ℤ :=
  let distance := pymod (planet_degree - ascendant_degree) 360
  pyint (distance / 30) + 1

/-- A finite machine double of the source's CPython runtime, as an exact
rational: an integer significand of magnitude at most `2^53` scaled by a
power of two no smaller than the subnormal scale `2^-1074`.  (This set
contains every finite IEEE-754 binary64 value; it is used to analyze the
rounding of the float operations inside `degree_to_house`.) -/
def IsDouble (q : ℚ) : Prop :=
  ∃ m e : ℤ, -1074 ≤ e ∧ |m| ≤ 2 ^ 53 ∧ q = (m : ℚ) * (2 : ℚ) ^ e

/-- Correct rounding to nearest, as the IEEE-754 basic operations behind
CPython's float `-` and the final `+` inside float `%` perform it: the value
returned for an exact result `x` is a double at minimal distance from `x`. -/
def RoundsTo (x r : ℚ) : Prop :=
  IsDouble r ∧ ∀ s : ℚ, IsDouble s → |x - r| ≤ |x - s|

/-- The chart-building loop of `HoroscopeCalculator.calculate_chart`: for every
entry of `PLANETS`, the house from the planet's ephemeris position — except
Ketu, whose longitude is `(rahu_degree + 180) % 360` where `rahu_degree` is the
position of the shared `MEAN_NODE` id. -/
def calculate_chart (position : Nat → ℚ) (ascendant : ℚ) : List (String × ℤ) :=
  PLANETS.map fun pr =>
    if pr.1 = "Ketu" then
      (pr.1, degree_to_house (pymod (position pr.2 + 180) 360) ascendant)
    else
      (pr.1, degree_to_house (position pr.2) ascendant)

/-- `HoroscopeCalculator.calculate_chart_by_place`: geocode the place name and
either raise (`RuntimeError`, modelled as `Except.error`) when no coordinates
are found, or delegate to `calculate_chart`.  The geocoder and the ephemeris
are opaque collaborators passed as parameters; the chart depends on the
coordinates through them. -/
def calculate_chart_by_place (geocode : String → Option (ℚ × ℚ))
    (position : ℚ × ℚ → Nat → ℚ) (ascendant : ℚ × ℚ → ℚ)
    (place_name : String) : Except String (List (String × ℤ)) :=
  match geocode place_name with
  | none => .error ("Could not find coordinates for " ++ place_name ++
      ". Please check the spelling or provide coordinates manually.")
  | some coords => .ok (calculate_chart (position coords) (ascendant coords))

/-! ## Chart model (`LalKitabHouseSystem`)

A Python dict is modelled as an association list in insertion order;
`planet in chart` / `chart[planet]` become `List.lookup`. -/

/-- The `required_planets` list of `LalKitabHouseSystem.validate_chart`. -/
def required_planets : List String :=
  ["Sun", "Moon", "Mars", "Mercury", "Jupiter", "Venus", "Saturn", "Rahu", "Ketu"]

/-- `LalKitabHouseSystem.validate_chart`: every required planet must be a key
and its house must satisfy `1 <= house <= 12`; any failure returns `False`. -/
def validate_chart (chart : List (String × ℤ)) : Bool :=
  required_planets.all fun planet =>
    match chart.lookup planet with
    | none => false
    | some house => decide (1 ≤ house ∧ house ≤ 12)

/-- `LalKitabHouseSystem.get_planets_in_house`:
`[planet for planet, h in chart.items() if h == house]`. -/
def get_planets_in_house (chart : List (String × ℤ)) (house : ℤ) : List String :=
  (chart.filter fun pr => pr.2 == house).map fun pr => pr.1

/-! ## Rule store client (`PineconeClient`)

The Pinecone index is an external collaborator; a metadata-filtered query for
one `(planet, house)` pair is modelled as an oracle
`q : String → ℤ → Except String (List QueryMatch)` (an `Except.error` models a
raised exception). -/

/-- The metadata stored with a vector; `metadata.get(key, '')` reads an
optional field with default `''`. -/
structure RuleMeta where
  planet : Option String
  house : Option ℤ
  heading : Option String
  content : Option String
  char_count : Option Nat
deriving DecidableEq

/-- One match returned by `index.query`. -/
structure QueryMatch where
  id : String
  score : ℚ
  metadata : RuleMeta
deriving DecidableEq

/-- The result dictionary built per match in `query_by_chart`. -/
structure RetrievedRule where
  planet : String
  house : ℤ
  id : String
  score : ℚ
  content : String
  heading : String
  metadata : RuleMeta
deriving DecidableEq

/-- The per-match normalization of `query_by_chart`. -/
def mkResult (planet : String) (house : ℤ) (m : QueryMatch) : RetrievedRule :=
  { planet := planet, house := house, id := m.id, score := m.score,
    content := m.metadata.content.getD "", heading := m.metadata.heading.getD "",
    metadata := m.metadata }

/-- `PineconeClient.query_by_chart`: iterate the chart's `(planet, house)`
pairs; on a successful per-pair query append its normalized matches to the
accumulator, on a raised exception print a warning and `continue` (modelled by
leaving the accumulator unchanged).  The call itself always returns the
accumulated list. -/
def query_by_chart (q : String → ℤ → Except String (List QueryMatch))
    (chart : List (String × ℤ)) : List RetrievedRule :=
  chart.foldl (fun acc pr =>
    match q pr.1 pr.2 with
    | .ok ms => acc ++ ms.map (mkResult pr.1 pr.2)
    | .error _ => acc) []

/-- What one `(planet, house)` pair contributes to the accumulated results of
`query_by_chart`: its normalized matches when its query succeeds, nothing when
it raises. -/
def pairResults (q : String → ℤ → Except String (List QueryMatch))
    (pr : String × ℤ) : List RetrievedRule :=
  match q pr.1 pr.2 with
  | .ok ms => ms.map (mkResult pr.1 pr.2)
  | .error _ => []

/-- The per-pair accumulation that `query_by_chart` is proved to compute: the
concatenation, in chart order, of the contributions of all pairs. -/
def okResults (q : String → ℤ → Except String (List QueryMatch))
    (chart : List (String × ℤ)) : List RetrievedRule :=
  (chart.map (pairResults q)).flatten

/-- A chunk together with its embedding, as passed to `upsert_chunks`. -/
structure EmbeddedChunk where
  planet : String
  house : Nat
  heading : List Char
  content : List Char
  char_count : Nat
  embedding : List ℚ
deriving DecidableEq

/-- The vector record built per chunk in `upsert_chunks`. -/
structure PineconeVector where
  id : String
  values : List ℚ
  meta_planet : String
  meta_house : Nat
  meta_heading : List Char
  meta_content : List Char
  meta_char_count : Nat
deriving DecidableEq

/-- Python's `str.lower()` on one ASCII character. -/
def pyLowerChar (c : Char) : Char :=
  if 65 ≤ c.toNat ∧ c.toNat ≤ 90 then Char.ofNat (c.toNat + 32) else c

/-- Python's `str.lower()` (ASCII model), as used in
`f"{chunk['planet'].lower()}_house_{chunk['house']}"`. -/
def pyLowerStr (s : String) : String :=
  ⟨s.data.map pyLowerChar⟩

/-- Split a list into consecutive batches of size `n` (the upload loop
`for i in range(0, len(vectors), batch_size)`). -/
def chunksOf (n : Nat) : List α → List (List α)
  | [] => []
  | x :: xs =>
    if _hn : n = 0 then [x :: xs]
    else (x :: xs).take n :: chunksOf n ((x :: xs).drop n)
termination_by l => l.length
decreasing_by
  simp only [List.length_drop, List.length_cons]
  omega

/-- `PineconeClient.upsert_chunks`: build one vector per chunk with id
`f"{chunk['planet'].lower()}_house_{chunk['house']}"`, upload in batches, and
return the uploaded vectors (in order) together with `total_uploaded`. -/
def upsert_chunks (chunks : List EmbeddedChunk) (batch_size : Nat) :
    List PineconeVector × Nat :=
  let vectors := chunks.map fun c =>
    { id := pyLowerStr c.planet ++ "_house_" ++ toString c.house,
      values := c.embedding, meta_planet := c.planet, meta_house := c.house,
      meta_heading := c.heading, meta_content := c.content,
      meta_char_count := c.char_count }
  let batches := chunksOf batch_size vectors
  (batches.flatten, batches.foldl (fun t b => t + b.length) 0)

/-! ## Conversational gate (`app.py: process_user_message`)

The Streamlit session state is a record; the external LLM classification, the
chart computation and the summary/answer generation are injected outcomes.
`st.session_state.birth_data` being `None` is the `AWAITING_BIRTH_DATA`
state. -/

/-- The normalized birth data produced by a `complete` extraction. -/
structure BirthData where
  date : String
  time : String
  place : String
  timezone : ℚ
deriving DecidableEq

/-- The classification returned by `extract_birth_data_with_llm`. -/
inductive ExtractStatus where
  | complete (data : BirthData)
  | incomplete (missing : List String)
  | non_astrology (message : String)
deriving DecidableEq

/-- The session-state fields touched by `process_user_message`. -/
structure SessionState where
  birth_data : Option BirthData
  chart : Option (List (String × ℤ))
  initial_summary_shown : Bool
deriving DecidableEq

/-- The conversation is awaiting birth data exactly when no birth data is
stored (`if not st.session_state.birth_data`). -/
def awaiting_birth_data (s : SessionState) : Prop := s.birth_data = none

/-- `process_user_message`: when no birth data is stored, classify the message;
on `complete`, store the data, then try chart computation and the initial
summary, resetting the stored birth data to `None` if anything in the `try`
block raises.  When birth data is stored, gate the question on astrology
relevance and answer it (errors caught and reported).  Returns the new session
state and the reply text. -/
def process_user_message
    (extract_birth_data : ExtractStatus)
    (generate_chart : BirthData → Except String (List (String × ℤ)))
    (generate_initial_summary : List (String × ℤ) → Except String String)
    (is_astrology : Bool) (answer : Except String String)
    (s : SessionState) : SessionState × String :=
  match s.birth_data with
  | none =>
    match extract_birth_data with
    | .complete d =>
      let s1 := { s with birth_data := some d }
      match generate_chart d with
      | .error e =>
        ({ s1 with birth_data := none },
         "I could not calculate your birth chart. Error: " ++ e ++
           " Please provide your birth details again.")
      | .ok chart =>
        let s2 := { s1 with chart := some chart }
        match generate_initial_summary chart with
        | .error e =>
          ({ s2 with birth_data := none },
           "I could not calculate your birth chart. Error: " ++ e ++
             " Please provide your birth details again.")
        | .ok summary =>
          ({ s2 with initial_summary_shown := true },
           "Got it! " ++ summary ++ " Feel free to ask me any questions about your chart!")
    | .incomplete missing =>
      (s, "I need more information. Please provide: " ++ String.intercalate ", " missing)
    | .non_astrology msg => (s, msg)
  | some _ =>
    if is_astrology then
      match answer with
      | .ok a => (s, a)
      | .error e => (s, "I encountered an error: " ++ e ++ " Please try rephrasing your question.")
    else
      (s, "I am an astrology assistant and can only answer questions related to your birth chart and astrological predictions.")

/-! ## Auxiliary definitions for the statements -/

/-- Structural invariant of one reported heading occurrence, relative to the
scanned suffix `l` of the document starting at absolute offset `off`: its
positions are within bounds, its `match_text` is the corresponding slice, the
matched text starts and ends with a non-whitespace character (no leading
whitespace is ever skipped), and its start is a line-start position. -/
def OccSpec (l : List Char) (off : Nat) (o : Occ) : Prop :=
  off ≤ o.start_pos ∧
  o.start_pos < o.end_pos ∧
  o.end_pos ≤ off + l.length ∧
  o.match_text = (l.drop (o.start_pos - off)).take (o.end_pos - o.start_pos) ∧
  (∀ c, o.match_text.head? = some c → pySpace c = false) ∧
  (∀ c, o.match_text.getLast? = some c → pySpace c = false) ∧
  (o.start_pos = off ∨ l[o.start_pos - off - 1]? = some '\n')

/-- The character of a decimal digit. -/
def digitChar10 : Nat → Char
  | 0 => '0'
  | 1 => '1'
  | 2 => '2'
  | 3 => '3'
  | 4 => '4'
  | 5 => '5'
  | 6 => '6'
  | 7 => '7'
  | 8 => '8'
  | 9 => '9'
  | _ => 'X'

/-- Standard decimal rendering of a natural number as a character list
(most-significant digit first), used to quantify over the documents
`"<Planet> in <n>th House"` of claim C10. -/
def natStr (n : Nat) : List Char :=
  if n = 0 then ['0'] else ((Nat.digits 10 n).map digitChar10).reverse

/-! ## Arithmetic facts about the house mapping -/

theorem pymod_nonneg (a b : ℚ) (hb : 0 < b) : 0 ≤ pymod a b := by
  have h1 : (⌊a / b⌋ : ℚ) ≤ a / b := Int.floor_le _
  have h2 : b * (⌊a / b⌋ : ℚ) ≤ b * (a / b) := by
    exact mul_le_mul_of_nonneg_left h1 hb.le
  have h3 : b * (a / b) = a := by
    field_simp
  unfold pymod
  linarith

theorem pymod_lt (a b : ℚ) (hb : 0 < b) : pymod a b < b := by
  have h1 : a / b < (⌊a / b⌋ : ℚ) + 1 := Int.lt_floor_add_one _
  have h2 : b * (a / b) < b * ((⌊a / b⌋ : ℚ) + 1) := by
    exact mul_lt_mul_of_pos_left h1 hb
  have h3 : b * (a / b) = a := by field_simp
  unfold pymod
  nlinarith

/-- Exact-arithmetic characterization of the house mapping: under the ℚ
idealization of the source's floats, the house is
`floor(((p − a) mod 360) / 30) + 1` and lies in `[1, 12]`.  The source's
machine arithmetic does NOT satisfy the `[1, 12]` bound at a rounding
boundary — see `degree_to_house_float_boundary`. -/
theorem degree_to_house_eq_floor (p a : ℚ) :
    degree_to_house p a = ⌊pymod (p - a) 360 / 30⌋ + 1 ∧
      1 ≤ degree_to_house p a ∧ degree_to_house p a ≤ 12 := by
  have hd0 : 0 ≤ pymod (p - a) 360 := pymod_nonneg _ _ (by norm_num)
  have hd1 : pymod (p - a) 360 < 360 := pymod_lt _ _ (by norm_num)
  have hq0 : 0 ≤ pymod (p - a) 360 / 30 := by positivity
  have heq : degree_to_house p a = ⌊pymod (p - a) 360 / 30⌋ + 1 := by
    unfold degree_to_house pyint
    simp [hq0]
  refine ⟨heq, ?_, ?_⟩
  · rw [heq]
    have : (0 : ℤ) ≤ ⌊pymod (p - a) 360 / 30⌋ := Int.floor_nonneg.mpr hq0
    omega
  · rw [heq]
    have hlt : pymod (p - a) 360 / 30 < (12 : ℤ) := by
      rw [div_lt_iff₀ (by norm_num : (0:ℚ) < 30)]
      push_cast
      linarith
    have : ⌊pymod (p - a) 360 / 30⌋ < 12 := Int.floor_lt.mpr hlt
    omega

/-- Correct rounding fixes the doubles: when the exact result is itself a
double, the rounded result equals it. -/
theorem roundsTo_self {x d : ℚ} (hx : IsDouble x) (hd : RoundsTo x d) : d = x := by
  have hle := hd.2 x hx
  rw [sub_self, abs_zero] at hle
  have h0 : |x - d| = 0 := le_antisymm hle (abs_nonneg _)
  have := abs_eq_zero.mp h0
  linarith

/-- Any double within `2^-47` of the exact sum `360 - 2^-47` is `360.0`
itself: every double of that magnitude lies on the `2^-44` grid of the
`[256, 512)` binade, and the only grid point within reach is `360`. -/
theorem isDouble_near_360 {q : ℚ} (hq : IsDouble q)
    (hnear : |(-(1 / 2 ^ 47) + 360 : ℚ) - q| ≤ 1 / 2 ^ 47) : q = 360 := by
  obtain ⟨m, e, _he, hm, rfl⟩ := hq
  obtain ⟨hle1, hle2⟩ := abs_le.mp hnear
  have hdlo : (360 : ℚ) - 1 / 2 ^ 46 ≤ (m : ℚ) * (2 : ℚ) ^ e := by
    have h46 : (1 : ℚ) / 2 ^ 46 = 2 * (1 / 2 ^ 47) := by norm_num
    linarith
  have hdhi : (m : ℚ) * (2 : ℚ) ^ e ≤ 360 := by linarith
  by_cases hcase : -44 ≤ e
  · have h2pos : (0 : ℚ) < (2 : ℚ) ^ e := zpow_pos (by norm_num) e
    have hgrid : (m : ℚ) * (2 : ℚ) ^ e * 2 ^ 44 = ((m * 2 ^ (e + 44).toNat : ℤ) : ℚ) := by
      have h2 : (2 : ℚ) ^ e * 2 ^ 44 = 2 ^ (e + 44).toNat := by
        rw [show ((2 : ℚ) ^ 44) = (2 : ℚ) ^ (44 : ℤ) from (zpow_natCast 2 44).symm,
          ← zpow_add₀ (two_ne_zero) e 44, ← zpow_natCast 2 (e + 44).toNat]
        congr 1
        omega
      push_cast
      rw [mul_assoc, h2]
    have hdiff : |((m * 2 ^ (e + 44).toNat : ℤ) : ℚ) - ((360 * 2 ^ 44 : ℤ) : ℚ)| < 1 := by
      rw [← hgrid]
      have hNcast : ((360 * 2 ^ 44 : ℤ) : ℚ) = 360 * 2 ^ 44 := by push_cast; ring
      rw [hNcast,
        show (m : ℚ) * (2 : ℚ) ^ e * 2 ^ 44 - 360 * 2 ^ 44 =
          ((m : ℚ) * (2 : ℚ) ^ e - 360) * 2 ^ 44 by ring,
        abs_mul, abs_of_pos (show (0 : ℚ) < 2 ^ 44 by positivity)]
      have hd360 : |(m : ℚ) * (2 : ℚ) ^ e - 360| ≤ 1 / 2 ^ 46 :=
        abs_le.mpr ⟨by linarith, by linarith⟩
      calc |(m : ℚ) * (2 : ℚ) ^ e - 360| * 2 ^ 44
          ≤ (1 / 2 ^ 46) * 2 ^ 44 :=
            mul_le_mul_of_nonneg_right hd360 (by positivity)
        _ < 1 := by norm_num
    have hint : m * 2 ^ (e + 44).toNat = 360 * 2 ^ 44 := by
      have habs2 : |(m * 2 ^ (e + 44).toNat - 360 * 2 ^ 44 : ℤ)| < 1 := by
        have hx := hdiff
        rw [← Int.cast_sub, ← Int.cast_abs] at hx
        exact_mod_cast hx
      have := Int.abs_lt_one_iff.mp habs2
      omega
    have hfin : (m : ℚ) * (2 : ℚ) ^ e * 2 ^ 44 = 360 * 2 ^ 44 := by
      rw [hgrid, hint]
      push_cast
      ring
    have h44ne : ((2 : ℚ) ^ 44) ≠ 0 := by positivity
    exact mul_right_cancel₀ h44ne (by rw [hfin])
  · exfalso
    push_neg at hcase
    have hmq : |(m : ℚ)| ≤ 2 ^ 53 := by
      rw [← Int.cast_abs]
      exact_mod_cast hm
    have h2pos : (0 : ℚ) < (2 : ℚ) ^ e := zpow_pos (by norm_num) e
    have hbound : (m : ℚ) * (2 : ℚ) ^ e ≤ 256 := by
      calc (m : ℚ) * (2 : ℚ) ^ e ≤ |(m : ℚ) * (2 : ℚ) ^ e| := le_abs_self _
        _ = |(m : ℚ)| * (2 : ℚ) ^ e := by rw [abs_mul, abs_of_pos h2pos]
        _ ≤ 2 ^ 53 * (2 : ℚ) ^ e := mul_le_mul_of_nonneg_right hmq h2pos.le
        _ ≤ 2 ^ 53 * (2 : ℚ) ^ (-45 : ℤ) := by
            refine mul_le_mul_of_nonneg_left ?_ (by positivity)
            exact zpow_le_zpow_right₀ (by norm_num) (by omega)
        _ = 256 := by
            rw [show ((2 : ℚ) ^ 53) = (2 : ℚ) ^ (53 : ℤ) from (zpow_natCast 2 53).symm,
              ← zpow_add₀ (two_ne_zero) 53 (-45 : ℤ)]
            norm_num
    have : (256 : ℚ) < 360 - 1 / 2 ^ 46 := by norm_num
    linarith

/-- Rounding the exact sum `-2^-47 + 360 = 360 - 2^-47` (the sign-correcting
addition inside CPython's float `%` at our boundary input) returns `360.0`,
and `360.0` is indeed a correctly rounded result: the `RoundsTo` relation at
this exact sum holds for `360` and for nothing else. -/
theorem roundsTo_boundary_360 :
    RoundsTo (-(1 / 2 ^ 47) + 360) 360 ∧
      ∀ d : ℚ, RoundsTo (-(1 / 2 ^ 47) + 360) d → d = 360 := by
  have h360 : IsDouble 360 := ⟨360, 0, by norm_num, by norm_num, by norm_num⟩
  have habs : |(-(1 / 2 ^ 47) + 360 : ℚ) - 360| = 1 / 2 ^ 47 := by
    rw [show (-(1 / 2 ^ 47) + 360 : ℚ) - 360 = -(1 / 2 ^ 47) by ring, abs_neg,
      abs_of_pos (by positivity)]
  constructor
  · refine ⟨h360, ?_⟩
    intro s hs
    rw [habs]
    rcases le_total (1 / 2 ^ 47) |(-(1 / 2 ^ 47) + 360 : ℚ) - s| with h | h
    · exact h
    · rw [isDouble_near_360 hs h, habs]
  · intro d hd
    obtain ⟨hdd, hmin⟩ := hd
    have hle := hmin 360 h360
    rw [habs] at hle
    exact isDouble_near_360 hdd hle

/-- C5 evidence of the code bug: at the valid longitudes
`planet_degree = 49.99999999999999` (the machine double `50 - 2^-47`) and
`ascendant_degree = 50.0`, the source's float arithmetic returns house 13,
outside the function's documented range `[1, 12]`.  The float subtraction is
exact (its exact result `-2^-47` is itself a double, and correct rounding
fixes doubles); CPython's float `%` computes `fmod(-2^-47, 360) = -2^-47`
exactly and then sign-corrects with one rounded addition, which rounds the
exact sum `360 - 2^-47` up to `360.0`; finally
`int(360.0 / 30) + 1 = 13 ∉ [1, 12]`.  Under exact arithmetic the same inputs
give house 12, so the escape from `[1, 12]` is purely a float-rounding
effect. -/
theorem degree_to_house_float_boundary :
    ((0 : ℚ) ≤ 50 - 1 / 2 ^ 47 ∧ (50 : ℚ) - 1 / 2 ^ 47 < 360 ∧
      (0 : ℚ) ≤ 50 ∧ (50 : ℚ) < 360 ∧
      IsDouble (50 - 1 / 2 ^ 47) ∧ IsDouble 50) ∧
    (RoundsTo ((50 - 1 / 2 ^ 47) - 50) (-(1 / 2 ^ 47)) ∧
      ∀ d : ℚ, RoundsTo ((50 - 1 / 2 ^ 47) - 50) d → d = -(1 / 2 ^ 47)) ∧
    (RoundsTo (-(1 / 2 ^ 47) + 360) 360 ∧
      ∀ d : ℚ, RoundsTo (-(1 / 2 ^ 47) + 360) d → d = 360) ∧
    (pyint ((360 : ℚ) / 30) + 1 = 13 ∧ ¬ (pyint ((360 : ℚ) / 30) + 1 ≤ 12)) ∧
    degree_to_house (50 - 1 / 2 ^ 47) 50 = 12 := by
  have hneg : IsDouble (-(1 / 2 ^ 47)) := by
    refine ⟨-1, -47, by norm_num, by norm_num, ?_⟩
    rw [show ((2 : ℚ) ^ (-47 : ℤ)) = ((2 : ℚ) ^ (47 : ℤ))⁻¹ from zpow_neg 2 47,
      show ((2 : ℚ) ^ (47 : ℤ)) = (2 : ℚ) ^ (47 : ℕ) from zpow_natCast 2 47]
    push_cast
    ring
  have hint12 : pyint ((360 : ℚ) / 30) + 1 = 13 := by
    rw [show ((360 : ℚ) / 30) = 12 by norm_num]
    unfold pyint
    rw [if_pos (by norm_num)]
    rw [show ⌊(12 : ℚ)⌋ = 12 by rw [Int.floor_eq_iff]; norm_num]
    decide
  refine ⟨⟨by positivity, by norm_num, by norm_num, by norm_num, ?_, ?_⟩, ?_, ?_,
    ⟨hint12, by omega⟩, ?_⟩
  · refine ⟨7036874417766399, -47, by norm_num, by norm_num, ?_⟩
    rw [show ((2 : ℚ) ^ (-47 : ℤ)) = ((2 : ℚ) ^ (47 : ℤ))⁻¹ from zpow_neg 2 47,
      show ((2 : ℚ) ^ (47 : ℤ)) = (2 : ℚ) ^ (47 : ℕ) from zpow_natCast 2 47]
    push_cast
    norm_num
  · exact ⟨50, 0, by norm_num, by norm_num, by norm_num⟩
  · constructor
    · refine ⟨hneg, ?_⟩
      intro s _
      rw [show ((50 : ℚ) - 1 / 2 ^ 47) - 50 - -(1 / 2 ^ 47) = 0 by ring, abs_zero]
      exact abs_nonneg _
    · intro d hd
      rw [show ((50 : ℚ) - 1 / 2 ^ 47) - 50 = -(1 / 2 ^ 47) by ring] at hd
      exact roundsTo_self hneg hd
  · exact roundsTo_boundary_360
  · have h1 : ⌊(((50 : ℚ) - 1 / 2 ^ 47) - 50) / 360⌋ = -1 := by
      rw [Int.floor_eq_iff]
      constructor
      · rw [show (((50 : ℚ) - 1 / 2 ^ 47) - 50) / 360 = -(1 / (360 * 2 ^ 47)) by ring]
        norm_num
      · rw [show (((50 : ℚ) - 1 / 2 ^ 47) - 50) / 360 = -(1 / (360 * 2 ^ 47)) by ring]
        norm_num
    have h3 : pymod (((50 : ℚ) - 1 / 2 ^ 47) - 50) 360 = 360 - 1 / 2 ^ 47 := by
      unfold pymod
      rw [h1]
      push_cast
      ring
    have h2 : ⌊((360 : ℚ) - 1 / 2 ^ 47) / 30⌋ = 11 := by
      rw [Int.floor_eq_iff]
      constructor
      · rw [le_div_iff₀ (by norm_num : (0:ℚ) < 30)]
        norm_num
      · rw [div_lt_iff₀ (by norm_num : (0:ℚ) < 30)]
        norm_num
    unfold degree_to_house pyint
    rw [h3]
    show (if 0 ≤ ((360 : ℚ) - 1 / 2 ^ 47) / 30 then ⌊((360 : ℚ) - 1 / 2 ^ 47) / 30⌋
      else ⌈((360 : ℚ) - 1 / 2 ^ 47) / 30⌉) + 1 = 12
    rw [if_pos (by positivity), h2]
    decide

/-- Concrete evaluation used by the examples: `(200 + 180) % 360 = 20`. -/
theorem pymod_380_360 : pymod ((200 : ℚ) + 180) 360 = 20 := by
  have h1 : ⌊((200:ℚ) + 180) / 360⌋ = 1 := by
    rw [Int.floor_eq_iff]
    norm_num
  unfold pymod
  rw [h1]
  norm_num

/-- Concrete evaluation used by the examples: a planet at 20° with ascendant
50° sits 330° from the ascendant, in house 12. -/
theorem degree_to_house_20_50 : degree_to_house 20 50 = 12 := by
  have h1 : ⌊(((20:ℚ) - 50)) / 360⌋ = -1 := by
    rw [Int.floor_eq_iff]
    norm_num
  have h2 : ⌊((330:ℚ)) / 30⌋ = 11 := by
    rw [Int.floor_eq_iff]
    norm_num
  have h3 : pymod ((20:ℚ) - 50) 360 = 330 := by
    unfold pymod
    rw [h1]
    norm_num
  unfold degree_to_house pyint
  rw [h3]
  show (if 0 ≤ (330:ℚ) / 30 then ⌊(330:ℚ) / 30⌋ else ⌈(330:ℚ) / 30⌉) + 1 = 12
  rw [if_pos (by norm_num), h2]
  decide

/-! ## Claim C4: Ketu is derived from Rahu -/

/-- C4: for every ephemeris-position assignment (hence every Julian day) with
Rahu's longitude in `[0, 360)` and every ascendant in `[0, 360)`, the chart
built by `calculate_chart` gives Ketu the house
`degree_to_house ((rahu + 180) % 360, ascendant)` where `rahu` is exactly the
position of the shared `MEAN_NODE` id that Rahu's own house is computed from:
Ketu is never computed independently. -/
theorem calculate_chart_ketu_from_rahu (position : Nat → ℚ) (ascendant : ℚ)
    (_h1 : 0 ≤ position MEAN_NODE) (_h2 : position MEAN_NODE < 360)
    (_h3 : 0 ≤ ascendant) (_h4 : ascendant < 360) :
    (calculate_chart position ascendant).lookup "Ketu" =
        some (degree_to_house (pymod (position MEAN_NODE + 180) 360) ascendant) ∧
      (calculate_chart position ascendant).lookup "Rahu" =
        some (degree_to_house (position MEAN_NODE) ascendant) := by
  constructor <;> rfl

/-- C4 witness: with Rahu at 200° and ascendant 50°, Ketu's longitude is
`(200 + 180) % 360 = 20` and its house is 12, as the claim's example states. -/
theorem calculate_chart_ketu_from_rahu_witness :
    ((0:ℚ) ≤ (if MEAN_NODE = MEAN_NODE then (200:ℚ) else 0) ∧
        (if MEAN_NODE = MEAN_NODE then (200:ℚ) else 0) < 360 ∧
        (0:ℚ) ≤ 50 ∧ (50:ℚ) < 360) ∧
      (calculate_chart (fun i => if i = MEAN_NODE then 200 else 0) 50).lookup "Ketu" =
        some (degree_to_house (pymod ((200:ℚ) + 180) 360) 50) ∧
      pymod ((200:ℚ) + 180) 360 = 20 ∧ degree_to_house 20 50 = 12 := by
  refine ⟨⟨by simp, by simp; norm_num, by norm_num, by norm_num⟩, ?_, pymod_380_360, degree_to_house_20_50⟩
  exact (calculate_chart_ketu_from_rahu (fun i => if i = MEAN_NODE then 200 else 0) 50
    (by simp) (by simp; norm_num) (by norm_num) (by norm_num)).1

/-! ## Claim C6: `validate_chart` -/

/-- A valid 9-planet chart used as a concrete example. -/
def chart9 : List (String × ℤ) :=
  [("Sun", 1), ("Moon", 1), ("Mars", 1), ("Mercury", 1), ("Jupiter", 1),
   ("Venus", 1), ("Saturn", 1), ("Rahu", 1), ("Ketu", 1)]

/-- C6 counterexample: `validate_chart` only inspects the nine required
planets, so on a finite map with an extra key carrying an out-of-range house
(here `("Pluto", 0)`) it returns `true` even though not every house value of
the map is within `[1, 12]` — refuting the claimed equivalence for arbitrary
finite maps from planet-name strings to integers. -/
theorem validate_chart_claim_counterexample :
    validate_chart (chart9 ++ [("Pluto", 0)]) = true ∧
      ¬ (∀ pr ∈ chart9 ++ [("Pluto", 0)], 1 ≤ pr.2 ∧ pr.2 ≤ 12) := by
  decide

/-- C6 (amended): `validate_chart chart` is `true` iff every one of the nine
required planets is a key of `chart` and the house value looked up for it is
within `[1, 12]`.  House values of keys outside the required-planet vocabulary
are not inspected.  The function is total (it returns a `Bool` for every
association list), so it never throws. -/
theorem validate_chart_spec (chart : List (String × ℤ)) :
    validate_chart chart = true ↔
      ∀ p ∈ required_planets, ∃ h, chart.lookup p = some h ∧ 1 ≤ h ∧ h ≤ 12 := by
  unfold validate_chart
  rw [List.all_eq_true]
  constructor
  · intro hall p hp
    have hx := hall p hp
    revert hx
    cases hl : chart.lookup p with
    | none => intro hx; exact absurd hx (by simp)
    | some hse =>
      intro hx
      exact ⟨hse, rfl, by simpa using hx⟩
  · intro hall p hp
    obtain ⟨hse, hl, hb1, hb2⟩ := hall p hp
    rw [hl]
    simpa using ⟨hb1, hb2⟩

/-- C6 witness: the amended equivalence at the valid example chart, plus the
concrete removal/out-of-range behavior retained from the claim: the full chart
validates, while dropping Sun or giving Sun house 0 or 13 invalidates. -/
theorem validate_chart_spec_witness :
    (validate_chart chart9 = true ↔
        ∀ p ∈ required_planets, ∃ h, chart9.lookup p = some h ∧ 1 ≤ h ∧ h ≤ 12) ∧
      validate_chart chart9 = true ∧
      validate_chart (chart9.drop 1) = false ∧
      validate_chart (("Sun", 0) :: chart9.drop 1) = false ∧
      validate_chart (("Sun", 13) :: chart9.drop 1) = false :=
  ⟨validate_chart_spec chart9, by decide, by decide, by decide, by decide⟩

/-! ## Claim C7: `get_planets_in_house` partitions the chart -/

/-- Membership characterization of `get_planets_in_house`: a planet name is in
the bucket of `house` exactly when the chart holds a pair mapping it to
`house`; this holds for every integer `house`, also outside `[1, 12]`. -/
theorem mem_get_planets_in_house (chart : List (String × ℤ)) (house : ℤ) (p : String) :
    p ∈ get_planets_in_house chart house ↔ ∃ pr ∈ chart, pr.1 = p ∧ pr.2 = house := by
  unfold get_planets_in_house
  rw [List.mem_map]
  constructor
  · rintro ⟨pr, hpr, hfst⟩
    rw [List.mem_filter] at hpr
    exact ⟨pr, hpr.1, hfst, by simpa using hpr.2⟩
  · rintro ⟨pr, hpr, hfst, hsnd⟩
    exact ⟨pr, List.mem_filter.mpr ⟨hpr, by simpa using hsnd⟩, hfst⟩

/-- C7: for every chart, (a) for any house value whatsoever,
`get_planets_in_house` returns exactly the planets whose assigned house equals
the argument (so an invalid house yields an empty collection), and (b) when
the chart is a finite map (no duplicate keys) with all houses in `[1, 12]`,
every planet of the chart lies in exactly one of the buckets for houses
1..12. -/
theorem get_planets_in_house_spec (chart : List (String × ℤ)) :
    (∀ (house : ℤ) (p : String),
        p ∈ get_planets_in_house chart house ↔ ∃ pr ∈ chart, pr.1 = p ∧ pr.2 = house) ∧
      ((chart.map Prod.fst).Nodup → (∀ pr ∈ chart, 1 ≤ pr.2 ∧ pr.2 ≤ 12) →
        ∀ p ∈ chart.map Prod.fst,
          ∃! house : ℤ, 1 ≤ house ∧ house ≤ 12 ∧ p ∈ get_planets_in_house chart house) := by
  refine ⟨mem_get_planets_in_house chart, ?_⟩
  intro hnd hrange p hp
  rw [List.mem_map] at hp
  obtain ⟨pr, hpr, hfst⟩ := hp
  refine ⟨pr.2, ⟨(hrange pr hpr).1, (hrange pr hpr).2,
    (mem_get_planets_in_house chart pr.2 p).mpr ⟨pr, hpr, hfst, rfl⟩⟩, ?_⟩
  rintro h' ⟨_, _, hmem⟩
  obtain ⟨pr', hpr', hfst', hsnd'⟩ := (mem_get_planets_in_house chart h' p).mp hmem
  have : pr' = pr :=
    List.inj_on_of_nodup_map hnd hpr' hpr (by rw [hfst', hfst])
  rw [← hsnd', this]

/-- C7 witness: the bucket characterization and the exactly-one-bucket
property at a concrete two-planet chart. -/
theorem get_planets_in_house_spec_witness :
    (∀ (house : ℤ) (p : String),
        p ∈ get_planets_in_house [("Sun", 1), ("Moon", 2)] house ↔
          ∃ pr ∈ [("Sun", (1:ℤ)), ("Moon", 2)], pr.1 = p ∧ pr.2 = house) ∧
      ∃! house : ℤ, 1 ≤ house ∧ house ≤ 12 ∧
        "Sun" ∈ get_planets_in_house [("Sun", 1), ("Moon", 2)] house :=
  ⟨(get_planets_in_house_spec [("Sun", 1), ("Moon", 2)]).1,
    (get_planets_in_house_spec [("Sun", 1), ("Moon", 2)]).2
      (by decide) (by decide) "Sun" (by decide)⟩

/-! ## Claim C1: per-pair partial failure in `query_by_chart` -/

/-- `query_by_chart` always returns (it catches every per-pair exception) and
computes exactly the concatenation of the per-pair contributions. -/
theorem query_by_chart_eq_okResults (q : String → ℤ → Except String (List QueryMatch))
    (chart : List (String × ℤ)) :
    query_by_chart q chart = okResults q chart := by
  have key : ∀ (l : List (String × ℤ)) (acc : List RetrievedRule),
      l.foldl (fun acc pr =>
        match q pr.1 pr.2 with
        | .ok ms => acc ++ ms.map (mkResult pr.1 pr.2)
        | .error _ => acc) acc = acc ++ okResults q l := by
    intro l
    induction l with
    | nil => intro acc; simp [okResults]
    | cons pr rest ih =>
      intro acc
      rw [List.foldl_cons]
      cases hq : q pr.1 pr.2 with
      | ok ms =>
        rw [ih]
        simp [okResults, pairResults, hq]
      | error e =>
        rw [ih]
        simp [okResults, pairResults, hq]
  simpa [query_by_chart] using key chart []

/-- C1: if the per-pair lookup of one `(planet, house)` pair of the chart
raises, `query_by_chart` still returns (no exception reaches the caller): the
failing pair contributes nothing, and the returned list is the accumulation of
every pair's contribution — in particular it contains every normalized match
of every pair whose lookup succeeds. -/
theorem query_by_chart_partial_failure
    (q : String → ℤ → Except String (List QueryMatch)) (chart : List (String × ℤ))
    (p0 : String) (h0 : ℤ) (e : String)
    (_hmem : (p0, h0) ∈ chart) (hfail : q p0 h0 = .error e) :
    query_by_chart q chart = okResults q chart ∧
      pairResults q (p0, h0) = [] ∧
      ∀ pr ∈ chart, ∀ ms, q pr.1 pr.2 = .ok ms → ∀ m ∈ ms,
        mkResult pr.1 pr.2 m ∈ query_by_chart q chart := by
  refine ⟨query_by_chart_eq_okResults q chart, by simp [pairResults, hfail], ?_⟩
  intro pr hpr ms hok m hm
  rw [query_by_chart_eq_okResults]
  unfold okResults
  rw [List.mem_flatten]
  refine ⟨ms.map (mkResult pr.1 pr.2), ?_, List.mem_map_of_mem _ hm⟩
  rw [List.mem_map]
  exact ⟨pr, hpr, by simp [pairResults, hok]⟩

/-- C1 witness: a two-pair chart whose `("Sun", 1)` lookup raises; the other
pair's match is still in the returned accumulation. -/
theorem query_by_chart_partial_failure_witness :
    (("Sun", (1:ℤ)) ∈ [("Sun", (1:ℤ)), ("Moon", 2)] ∧
        (fun p (_ : ℤ) => if p == "Sun" then (Except.error "boom" : Except String (List QueryMatch))
            else .ok [{ id := "moon_house_2", score := 0,
                        metadata := ⟨none, none, none, none, none⟩ }]) "Sun" 1 = .error "boom") ∧
      query_by_chart
          (fun p (_ : ℤ) => if p == "Sun" then .error "boom"
            else .ok [{ id := "moon_house_2", score := 0,
                        metadata := ⟨none, none, none, none, none⟩ }])
          [("Sun", 1), ("Moon", 2)] =
        okResults
          (fun p (_ : ℤ) => if p == "Sun" then .error "boom"
            else .ok [{ id := "moon_house_2", score := 0,
                        metadata := ⟨none, none, none, none, none⟩ }])
          [("Sun", 1), ("Moon", 2)] ∧
      mkResult "Moon" 2
          { id := "moon_house_2", score := 0, metadata := ⟨none, none, none, none, none⟩ } ∈
        query_by_chart
          (fun p (_ : ℤ) => if p == "Sun" then .error "boom"
            else .ok [{ id := "moon_house_2", score := 0,
                        metadata := ⟨none, none, none, none, none⟩ }])
          [("Sun", 1), ("Moon", 2)] := by
  have main := query_by_chart_partial_failure
    (fun p (_ : ℤ) => if p == "Sun" then .error "boom"
      else .ok [{ id := "moon_house_2", score := 0,
                  metadata := ⟨none, none, none, none, none⟩ }])
    [("Sun", 1), ("Moon", 2)] "Sun" 1 "boom" (by decide) rfl
  refine ⟨⟨by decide, rfl⟩, main.1, ?_⟩
  exact main.2.2 ("Moon", 2) (by decide) _ rfl _ (by simp)

/-! ## Claim C9: chart-computation failure resets the birth-data gate -/

/-- C9: while awaiting birth data, if the message is classified `complete` but
the chart computation raises, the new session state has its stored birth data
discarded (`None`) and the conversation is back in the awaiting-birth-data
state with everything else unchanged — no partial birth data survives the
failed computation. -/
theorem process_user_message_chart_failure
    (generate_chart : BirthData → Except String (List (String × ℤ)))
    (generate_initial_summary : List (String × ℤ) → Except String String)
    (is_astrology : Bool) (answer : Except String String)
    (s : SessionState) (d : BirthData) (e : String)
    (hawait : awaiting_birth_data s)
    (hfail : generate_chart d = .error e) :
    (process_user_message (.complete d) generate_chart generate_initial_summary
        is_astrology answer s).1 = { s with birth_data := none } ∧
      awaiting_birth_data (process_user_message (.complete d) generate_chart
        generate_initial_summary is_astrology answer s).1 ∧
      (process_user_message (.complete d) generate_chart generate_initial_summary
        is_astrology answer s).1.chart = s.chart := by
  obtain ⟨bd, ch, fl⟩ := s
  have hbd : bd = none := hawait
  subst hbd
  simp [process_user_message, hfail, awaiting_birth_data]

/-- C9 witness: a concrete session with no stored data, a `complete`
extraction, and a chart computation that fails because the place name cannot
be geocoded (`calculate_chart_by_place` with a geocoder that finds nothing);
the resulting state has no birth data and no chart. -/
theorem process_user_message_chart_failure_witness :
    (awaiting_birth_data ⟨none, none, false⟩ ∧
        calculate_chart_by_place (fun _ => none) (fun _ _ => 0) (fun _ => 0) "Nowhereville" =
          .error ("Could not find coordinates for Nowhereville" ++
            ". Please check the spelling or provide coordinates manually.")) ∧
      (process_user_message
          (.complete ⟨"2004-01-16", "10:30", "Nowhereville", 11/2⟩)
          (fun b => calculate_chart_by_place (fun _ => none) (fun _ _ => 0) (fun _ => 0) b.place)
          (fun _ => .ok "summary") true (.ok "answer")
          ⟨none, none, false⟩).1 =
        { birth_data := none, chart := none, initial_summary_shown := false } := by
  refine ⟨⟨rfl, rfl⟩, ?_⟩
  exact (process_user_message_chart_failure
    (fun b => calculate_chart_by_place (fun _ => none) (fun _ _ => 0) (fun _ => 0) b.place)
    (fun _ => .ok "summary") true (.ok "answer")
    ⟨none, none, false⟩ ⟨"2004-01-16", "10:30", "Nowhereville", 11/2⟩
    ("Could not find coordinates for Nowhereville" ++
      ". Please check the spelling or provide coordinates manually.")
    rfl rfl).1

/-! ## Structural lemmas about the heading matcher -/

/-- Case-insensitively equal characters are whitespace together: ASCII case
folding moves only the uppercase letters, never into or out of the whitespace
codes. -/
theorem lowerEq_pySpace {x c : Char} (h : lowerEq x c = true) : pySpace x = pySpace c := by
  simp only [lowerEq, beq_iff_eq] at h
  cases hx : pySpace x <;> cases hc : pySpace c <;> try rfl
  all_goals
    simp only [pySpace, Bool.or_eq_true, beq_iff_eq, Bool.or_eq_false_iff,
      beq_eq_false_iff_ne, ne_eq] at hx hc
  all_goals
    unfold lowNat at h
    split_ifs at h <;> omega

/-- A successful `matchCI` splits its input into a consumed block that pairs
case-insensitively with the pattern, followed by the returned rest. -/
theorem matchCI_decomp : ∀ (p l r : List Char), matchCI p l = some r →
    ∃ a, l = a ++ r ∧ a.length = p.length ∧
      List.Forall₂ (fun x c => lowerEq x c = true) p a := by
  intro p
  induction p with
  | nil =>
    intro l r h
    rw [matchCI] at h
    cases h
    exact ⟨[], rfl, rfl, List.Forall₂.nil⟩
  | cons x xs ih =>
    intro l r h
    cases l with
    | nil => rw [matchCI] at h; cases h
    | cons c cs =>
      rw [matchCI] at h
      split at h
      · obtain ⟨a, hcs, hlen, hf⟩ := ih cs r h
        refine ⟨c :: a, by rw [List.cons_append, hcs], by simp [hlen], ?_⟩
        exact List.Forall₂.cons (by assumption) hf
      · cases h

/-- A successful `ws1` consumes a nonempty block. -/
theorem ws1_decomp {l r : List Char} (h : ws1 l = some r) :
    ∃ a, l = a ++ r ∧ a ≠ [] := by
  cases l with
  | nil => rw [ws1] at h; cases h
  | cons c cs =>
    rw [ws1] at h
    split at h
    · cases h
      exact ⟨c :: cs.takeWhile pySpace,
        by rw [List.cons_append, List.takeWhile_append_dropWhile], by simp⟩
    · cases h

/-- A successful `matchOrdinal` consumes a nonempty block. -/
theorem matchOrdinal_decomp {l : List Char} {hse : Nat} {r : List Char}
    (hm : matchOrdinal l = some (hse, r)) : ∃ a, l = a ++ r ∧ a ≠ [] := by
  cases l with
  | nil => rw [matchOrdinal] at hm; cases hm
  | cons c cs =>
    by_cases hdig : pyDigit c = true
    · rw [matchOrdinal, if_pos hdig] at hm
      cases hm
      refine ⟨(c :: cs).takeWhile pyDigit,
        by rw [List.takeWhile_append_dropWhile], ?_⟩
      rw [List.takeWhile_cons, if_pos hdig]
      simp
    · rw [matchOrdinal, if_neg hdig] at hm
      by_cases hi : lowerEq 'I' c = true
      · rw [if_pos hi] at hm
        cases hm
        exact ⟨[c], rfl, by simp⟩
      · rw [if_neg hi] at hm
        cases hm

/-- `ordSuffix` only ever removes a prefix. -/
theorem ordSuffix_decomp (l : List Char) : ∃ a, l = a ++ ordSuffix l := by
  cases l with
  | nil => exact ⟨[], rfl⟩
  | cons a0 l0 =>
    cases l0 with
    | nil => exact ⟨[], rfl⟩
    | cons b0 l1 =>
      by_cases hc : ((lowerEq 's' a0 && lowerEq 't' b0) || (lowerEq 'n' a0 && lowerEq 'd' b0)
          || (lowerEq 'r' a0 && lowerEq 'd' b0) || (lowerEq 't' a0 && lowerEq 'h' b0)) = true
      · rw [ordSuffix, if_pos hc]
        exact ⟨[a0, b0], rfl⟩
      · rw [ordSuffix, if_neg hc]
        exact ⟨[], rfl⟩

/-- A successful `matchPlanet` returns a vocabulary name and consumes a block
that pairs case-insensitively with that name. -/
theorem matchPlanet_decomp : ∀ (ps : List String) (l : List Char) (p : String)
    (r : List Char), matchPlanet ps l = some (p, r) →
    p ∈ ps ∧ ∃ a, l = a ++ r ∧ a.length = p.data.length ∧
      List.Forall₂ (fun x c => lowerEq x c = true) p.data a := by
  intro ps
  induction ps with
  | nil => intro l p r h; rw [matchPlanet] at h; cases h
  | cons q qs ih =>
    intro l p r h
    rw [matchPlanet] at h
    cases hq : matchCI q.data l with
    | some r2 =>
      rw [hq] at h
      cases h
      exact ⟨List.mem_cons_self q qs, matchCI_decomp q.data l r hq⟩
    | none =>
      rw [hq] at h
      obtain ⟨hmem, hrest⟩ := ih l p r h
      exact ⟨List.mem_cons_of_mem q hmem, hrest⟩

/-- Characters matched case-insensitively against an all-non-whitespace
pattern are non-whitespace. -/
theorem forall₂_lowerEq_nonspace : ∀ {p a : List Char},
    List.Forall₂ (fun x c => lowerEq x c = true) p a →
    (∀ x ∈ p, pySpace x = false) → ∀ c ∈ a, pySpace c = false := by
  intro p a hf
  induction hf with
  | nil => intro _ c hc; cases hc
  | cons hxy _hrest ih =>
    intro hp c hc
    rcases List.mem_cons.mp hc with rfl | hc2
    · rw [← lowerEq_pySpace hxy]
      exact hp _ (List.mem_cons_self _ _)
    · exact ih (fun x hx => hp x (List.mem_cons_of_mem _ hx)) c hc2

/-- Every character of every planet name is non-whitespace, and every name is
nonempty. -/
theorem planetNames_chars : ∀ p ∈ planetNames, p.data ≠ [] ∧
    ∀ x ∈ p.data, pySpace x = false := by decide

/-- Every character of the `house` literal is non-whitespace. -/
theorem house_chars : "house".data ≠ [] ∧ ∀ x ∈ "house".data, pySpace x = false := by
  decide

/-- Head of an append with a nonempty left part. -/
theorem head?_append_left {u v : List α} (hu : u ≠ []) : (u ++ v).head? = u.head? := by
  cases u with
  | nil => cases hu rfl
  | cons x xs => rfl

/-- Last of an append with a nonempty right part. -/
theorem getLast?_append_right {u v : List α} (hv : v ≠ []) :
    (u ++ v).getLast? = v.getLast? := by
  rw [List.getLast?_append]
  cases hl : v.getLast? with
  | some x => rfl
  | none =>
    rw [List.getLast?_eq_none_iff] at hl
    cases hv hl

/-- Membership from `getLast?`. -/
theorem mem_of_getLast? {l : List α} {c : α} (h : l.getLast? = some c) : c ∈ l := by
  obtain ⟨hne, rfl⟩ := List.mem_getLast?_eq_getLast (by rw [h]; exact rfl)
  exact List.getLast_mem hne

/-- A successful heading match splits the input into the nonempty matched text
followed by the rest; the matched text begins with a (case-insensitive) planet
initial and ends with a character of `house`, so both of its ends are
non-whitespace. -/
theorem matchHeadingAt_decomp {l : List Char} {p : String} {hse : Nat} {r : List Char}
    (h : matchHeadingAt l = some (p, hse, r)) :
    ∃ mt, l = mt ++ r ∧ mt ≠ [] ∧
      (∀ c, mt.head? = some c → pySpace c = false) ∧
      (∀ c, mt.getLast? = some c → pySpace c = false) := by
  unfold matchHeadingAt at h
  cases h1 : matchPlanet planetNames l with
  | none => rw [h1] at h; cases h
  | some pr1 =>
  obtain ⟨p1, r1⟩ := pr1
  rw [h1] at h
  simp only [Option.bind_eq_bind, Option.some_bind] at h
  cases h2 : ws1 r1 with
  | none => rw [h2] at h; cases h
  | some r2 =>
  rw [h2] at h
  simp only [Option.some_bind] at h
  cases h3 : matchCI "in".data r2 with
  | none => rw [h3] at h; cases h
  | some r3 =>
  rw [h3] at h
  simp only [Option.some_bind] at h
  cases h4 : ws1 r3 with
  | none => rw [h4] at h; cases h
  | some r4 =>
  rw [h4] at h
  simp only [Option.some_bind] at h
  cases h5 : matchOrdinal r4 with
  | none => rw [h5] at h; cases h
  | some pr5 =>
  obtain ⟨hse5, r5⟩ := pr5
  rw [h5] at h
  simp only [Option.some_bind] at h
  cases h6 : ws1 (ordSuffix r5) with
  | none => rw [h6] at h; cases h
  | some r7 =>
  rw [h6] at h
  simp only [Option.some_bind] at h
  cases h7 : matchCI "house".data r7 with
  | none => rw [h7] at h; cases h
  | some r8 =>
  rw [h7] at h
  simp only [Option.some_bind, Option.some.injEq, Prod.mk.injEq] at h
  obtain ⟨hp, hhse, hr⟩ := h
  subst hp hhse hr
  obtain ⟨hmem, a1, hl1, hlen1, hf1⟩ := matchPlanet_decomp _ _ _ _ h1
  obtain ⟨a2, hl2, _hne2⟩ := ws1_decomp h2
  obtain ⟨a3, hl3, _hlen3, _hf3⟩ := matchCI_decomp _ _ _ h3
  obtain ⟨a4, hl4, _hne4⟩ := ws1_decomp h4
  obtain ⟨a5, hl5, _hne5⟩ := matchOrdinal_decomp h5
  obtain ⟨a6, hl6⟩ := ordSuffix_decomp r5
  obtain ⟨a7, hl7, _hne7⟩ := ws1_decomp h6
  obtain ⟨a8, hl8, hlen8, hf8⟩ := matchCI_decomp _ _ _ h7
  have hpn := planetNames_chars p1 hmem
  have ha1ne : a1 ≠ [] := by
    intro hc
    rw [hc] at hlen1
    exact hpn.1 (List.length_eq_zero.mp hlen1.symm)
  have ha1sp : ∀ c ∈ a1, pySpace c = false :=
    forall₂_lowerEq_nonspace hf1 hpn.2
  have ha8ne : a8 ≠ [] := by
    intro hc
    rw [hc] at hlen8
    exact house_chars.1 (List.length_eq_zero.mp hlen8.symm)
  have ha8sp : ∀ c ∈ a8, pySpace c = false :=
    forall₂_lowerEq_nonspace hf8 house_chars.2
  refine ⟨a1 ++ (a2 ++ (a3 ++ (a4 ++ (a5 ++ (a6 ++ (a7 ++ a8)))))), ?_, ?_, ?_, ?_⟩
  · rw [hl1, hl2, hl3, hl4, hl5, hl6, hl7, hl8]
    simp [List.append_assoc]
  · intro hc
    exact ha1ne (List.append_eq_nil.mp hc).1
  · intro c hc
    rw [head?_append_left ha1ne] at hc
    exact ha1sp c (List.mem_of_mem_head? hc)
  · intro c hc
    have h8 : (a1 ++ (a2 ++ (a3 ++ (a4 ++ (a5 ++ (a6 ++ (a7 ++ a8))))))).getLast? =
        a8.getLast? := by
      rw [getLast?_append_right, getLast?_append_right, getLast?_append_right,
        getLast?_append_right, getLast?_append_right, getLast?_append_right,
        getLast?_append_right ha8ne]
      all_goals
        intro hnil
        exact ha8ne (by simp [List.append_eq_nil] at hnil; tauto)
    rw [h8] at hc
    exact ha8sp c (mem_of_getLast? hc)

/-- A successful heading match strictly shortens the input. -/
theorem matchHeadingAt_length {l : List Char} {p : String} {hse : Nat} {r : List Char}
    (h : matchHeadingAt l = some (p, hse, r)) : r.length < l.length := by
  obtain ⟨mt, rfl, hne, -, -⟩ := matchHeadingAt_decomp h
  rw [List.length_append]
  cases mt with
  | nil => cases hne rfl
  | cons x xs => simp

/-- `dropLine` accounting: the dropped count plus the rest is the whole list,
the rest is the corresponding suffix, and something is dropped from a
nonempty list. -/
theorem dropLine_spec : ∀ l : List Char,
    (dropLine l).1 + (dropLine l).2.length = l.length ∧
    l.drop (dropLine l).1 = (dropLine l).2 ∧
    (l ≠ [] → 1 ≤ (dropLine l).1) := by
  intro l
  induction l with
  | nil => simp [dropLine]
  | cons c cs ih =>
    by_cases hnl : c = '\n'
    · rw [dropLine, if_pos hnl]
      exact ⟨by simp [Nat.add_comm], by simp, fun _ => le_refl 1⟩
    · rw [dropLine, if_neg hnl]
      obtain ⟨ih1, ih2, _ih3⟩ := ih
      refine ⟨by simp; omega, ?_, fun _ => by simp⟩
      simpa using ih2

/-- When the rest of `dropLine` is nonempty, the character just before it in
the original list is a newline: the rest starts at a line start. -/
theorem dropLine_newline : ∀ l : List Char, (dropLine l).2 ≠ [] →
    l[(dropLine l).1 - 1]? = some '\n' := by
  intro l
  induction l with
  | nil => intro hne; simp [dropLine] at hne
  | cons c cs ih =>
    intro hne
    by_cases hnl : c = '\n'
    · rw [dropLine, if_pos hnl]
      simpa using hnl
    · rw [dropLine, if_neg hnl] at hne ⊢
      have hcs : cs ≠ [] := by
        intro hc
        rw [hc] at hne
        simp [dropLine] at hne
      have hk := (dropLine_spec cs).2.2 hcs
      have := ih hne
      have harith : (dropLine cs).1 + 1 - 1 = ((dropLine cs).1 - 1) + 1 := by omega
      rw [harith]
      simpa using this

/-- The scan of the empty suffix reports nothing, whatever the fuel. -/
theorem scanAux_nil (fuel off : Nat) : scanAux fuel [] off = [] := by
  cases fuel with
  | zero => rfl
  | succ n => rfl

/-- Shifting an occurrence invariant from a dropped suffix back to the whole
scanned list: `d` characters were consumed up to a line start (the character
before position `d` is a newline). -/
theorem OccSpec_shift {l : List Char} {off d : Nat} {o : Occ}
    (hd : d ≤ l.length) (h1 : 1 ≤ d)
    (hnl : l[d - 1]? = some '\n')
    (hs : OccSpec (l.drop d) (off + d) o) : OccSpec l off o := by
  obtain ⟨hs1, hs2, hs3, hs4, hs5, hs6, hs7⟩ := hs
  have hlen : (l.drop d).length = l.length - d := List.length_drop d l
  rw [hlen] at hs3
  refine ⟨by omega, hs2, by omega, ?_, hs5, hs6, ?_⟩
  · rw [hs4, List.drop_drop]
    congr 2
    omega
  · by_cases hstart : o.start_pos = off + d
    · right
      have hix : o.start_pos - off - 1 = d - 1 := by omega
      rw [hix]
      exact hnl
    · right
      rcases hs7 with heq | hget
      · exact absurd heq hstart
      · rw [List.getElem?_drop] at hget
        have hix : d + (o.start_pos - (off + d) - 1) = o.start_pos - off - 1 := by
          omega
        rw [hix] at hget
        exact hget

/-- The central invariant of the `finditer` scan: every reported occurrence
satisfies `OccSpec` (bounds, slice identity, non-whitespace ends, line
anchoring), and the occurrences are strictly ordered — each match ends before
the next one starts. -/
theorem scanAux_spec : ∀ (fuel : Nat) (l : List Char) (off : Nat), l.length < fuel →
    (∀ o ∈ scanAux fuel l off, OccSpec l off o) ∧
    (scanAux fuel l off).Chain' (fun o1 o2 => o1.end_pos < o2.start_pos) := by
  intro fuel
  induction fuel with
  | zero => intro l off h; omega
  | succ n ih =>
    intro l off hlen
    cases l with
    | nil => simp [scanAux]
    | cons a l0 =>
      cases hm : matchHeadingAt (a :: l0) with
      | none =>
        have hstep : scanAux (n + 1) (a :: l0) off =
            scanAux n (dropLine (a :: l0)).2 (off + (dropLine (a :: l0)).1) := by
          rw [scanAux, hm]
        obtain ⟨hd1, hd2, hd3⟩ := dropLine_spec (a :: l0)
        have hk1 : 1 ≤ (dropLine (a :: l0)).1 := hd3 (by simp)
        have hrlen : (dropLine (a :: l0)).2.length < n := by
          simp only [List.length_cons] at hd1 hlen
          omega
        obtain ⟨ihA, ihB⟩ := ih (dropLine (a :: l0)).2 (off + (dropLine (a :: l0)).1) hrlen
        rw [hstep]
        refine ⟨?_, ihB⟩
        intro o ho
        have hne : (dropLine (a :: l0)).2 ≠ [] := by
          intro hc
          rw [hc, scanAux_nil] at ho
          cases ho
        refine OccSpec_shift (by omega) hk1 (dropLine_newline _ hne) ?_
        rw [hd2]
        exact ihA o ho
      | some pr =>
        obtain ⟨p, hse, rest⟩ := pr
        obtain ⟨mt, hsplit, hmtne, hmthead, hmtlast⟩ := matchHeadingAt_decomp hm
        have hmlen : mt.length + rest.length = (a :: l0).length := by
          rw [hsplit, List.length_append]
        have hmt1 : 1 ≤ mt.length := by
          cases mt with
          | nil => cases hmtne rfl
          | cons x xs => simp
        have hlendef : (a :: l0).length - rest.length = mt.length := by omega
        have hstep : scanAux (n + 1) (a :: l0) off =
            { planet := p, house := hse, start_pos := off, end_pos := off + mt.length,
              match_text := (a :: l0).take mt.length } ::
              scanAux n (dropLine rest).2 (off + mt.length + (dropLine rest).1) := by
          rw [scanAux, hm]
          show (Occ.mk p hse off (off + ((a :: l0).length - rest.length))
              ((a :: l0).take ((a :: l0).length - rest.length)) ::
              scanAux n (dropLine rest).2
                (off + ((a :: l0).length - rest.length) + (dropLine rest).1)) = _
          rw [hlendef]
        obtain ⟨he1, he2, he3⟩ := dropLine_spec rest
        have hdroplen : (a :: l0).drop mt.length = rest := by
          rw [hsplit]
          exact List.drop_left mt rest
        have htake : (a :: l0).take mt.length = mt := by
          rw [hsplit]
          exact List.take_left mt rest
        have hspec0 : OccSpec (a :: l0) off
            { planet := p, house := hse, start_pos := off, end_pos := off + mt.length,
              match_text := (a :: l0).take mt.length } := by
          refine ⟨le_refl off, ?_, ?_, ?_, ?_, ?_, Or.inl rfl⟩
          · show off < off + mt.length
            omega
          · show off + mt.length ≤ off + (a :: l0).length
            omega
          · show (a :: l0).take mt.length =
              ((a :: l0).drop (off - off)).take (off + mt.length - off)
            rw [Nat.sub_self, List.drop_zero]
            congr 1
            omega
          · show ∀ c, ((a :: l0).take mt.length).head? = some c → pySpace c = false
            rw [htake]
            exact hmthead
          · show ∀ c, ((a :: l0).take mt.length).getLast? = some c → pySpace c = false
            rw [htake]
            exact hmtlast
        have hrlen2 : (dropLine rest).2.length < n := by
          simp only [List.length_cons] at hmlen hlen
          omega
        obtain ⟨ihA, ihB⟩ := ih (dropLine rest).2 (off + mt.length + (dropLine rest).1) hrlen2
        rw [hstep]
        constructor
        · intro o ho
          rcases List.mem_cons.mp ho with rfl | hotail
          · exact hspec0
          · have hne : (dropLine rest).2 ≠ [] := by
              intro hc
              rw [hc, scanAux_nil] at hotail
              cases hotail
            have hrestne : rest ≠ [] := by
              intro hc
              rw [hc] at hne
              simp [dropLine] at hne
            have hk1 : 1 ≤ (dropLine rest).1 := he3 hrestne
            have hd : mt.length + (dropLine rest).1 ≤ (a :: l0).length := by omega
            have hnl : (a :: l0)[mt.length + (dropLine rest).1 - 1]? = some '\n' := by
              have hidx : mt.length + (dropLine rest).1 - 1 =
                  mt.length + ((dropLine rest).1 - 1) := by omega
              rw [hidx, hsplit, List.getElem?_append_right (by omega)]
              have hix2 : mt.length + ((dropLine rest).1 - 1) - mt.length =
                  (dropLine rest).1 - 1 := by omega
              rw [hix2]
              exact dropLine_newline rest hne
            refine OccSpec_shift hd (by omega) hnl ?_
            have hdrop2 : (a :: l0).drop (mt.length + (dropLine rest).1) =
                (dropLine rest).2 := by
              rw [← List.drop_drop, hdroplen, he2]
            rw [hdrop2]
            have harith : off + (mt.length + (dropLine rest).1) =
                off + mt.length + (dropLine rest).1 := by omega
            rw [harith]
            exact ihA o hotail
        · rw [List.chain'_cons']
          refine ⟨?_, ihB⟩
          intro o2 ho2
          have hmemtail := List.mem_of_mem_head? ho2
          have hne : (dropLine rest).2 ≠ [] := by
            intro hc
            rw [hc, scanAux_nil] at hmemtail
            cases hmemtail
          have hrestne : rest ≠ [] := by
            intro hc
            rw [hc] at hne
            simp [dropLine] at hne
          have hk1 : 1 ≤ (dropLine rest).1 := he3 hrestne
          have hb := (ihA o2 hmemtail).1
          show off + mt.length < o2.start_pos
          omega

/-- `OccSpec` for every occurrence of `findHeadings`, plus strict ordering. -/
theorem findHeadings_spec (text : List Char) :
    (∀ o ∈ findHeadings text, OccSpec text 0 o) ∧
    (findHeadings text).Chain' (fun o1 o2 => o1.end_pos < o2.start_pos) :=
  scanAux_spec (text.length + 1) text 0 (by omega)

/-! ## Claim C3: line anchoring of the heading matcher -/

/-- C3 counterexample: a line whose `Sun in 1st House` marker is preceded by
leading spaces (or a tab) yields NO heading occurrence — the pattern `^(...)`
has no allowance for whitespace between the line start and the planet name, so
the claim's "ignoring any leading whitespace on that line" fails on the code. -/
theorem find_all_leading_whitespace_counterexample :
    find_all_planet_house_headings "  Sun in 1st House" = [] ∧
      find_all_planet_house_headings "\tSun in 1st House" = [] ∧
      find_all_planet_house_headings "x\n  Sun in 1st House" = [] := by
  refine ⟨by decide, by decide, by decide⟩

/-- C3 (amended): matching is line-anchored with no whitespace allowance:
every reported occurrence starts at offset 0 or immediately after a newline,
and the matched text — which begins exactly at `start_pos` — starts with a
non-whitespace character.  A marker at an exact line start is matched
(concrete positive case), while the same text preceded by leading whitespace
on its line, or appearing mid-prose, produces no occurrence. -/
theorem find_all_line_anchored (text : String) :
    (∀ o ∈ find_all_planet_house_headings text,
        (o.start_pos = 0 ∨ text.data[o.start_pos - 1]? = some '\n') ∧
        o.match_text = slice text.data o.start_pos o.end_pos ∧
        (∀ c, o.match_text.head? = some c → pySpace c = false)) ∧
      find_all_planet_house_headings "x\nSun in 1st House" =
        [⟨"Sun", 1, 2, 18, "Sun in 1st House".data⟩] ∧
      find_all_planet_house_headings "  Sun in 1st House" = [] ∧
      find_all_planet_house_headings "y Sun in 1st House" = [] := by
  refine ⟨?_, by decide, by decide, by decide⟩
  intro o ho
  obtain ⟨_h1, _h2, _h3, h4, h5, _h6, h7⟩ := (findHeadings_spec text.data).1 o ho
  refine ⟨?_, ?_, h5⟩
  · rcases h7 with heq | hget
    · exact Or.inl heq
    · right
      simpa using hget
  · rw [h4]
    unfold slice
    simp

/-- C3 witness (for the amended theorem): its instantiation at a concrete
document whose marker sits at an exact line start. -/
theorem find_all_line_anchored_witness :
    (∀ o ∈ find_all_planet_house_headings "x\nSun in 1st House",
        (o.start_pos = 0 ∨ "x\nSun in 1st House".data[o.start_pos - 1]? = some '\n') ∧
        o.match_text = slice "x\nSun in 1st House".data o.start_pos o.end_pos ∧
        (∀ c, o.match_text.head? = some c → pySpace c = false)) ∧
      find_all_planet_house_headings "x\nSun in 1st House" =
        [⟨"Sun", 1, 2, 18, "Sun in 1st House".data⟩] ∧
      find_all_planet_house_headings "  Sun in 1st House" = [] ∧
      find_all_planet_house_headings "y Sun in 1st House" = [] :=
  find_all_line_anchored "x\nSun in 1st House"

/-! ## Claim C8: chunk content contains its heading -/

/-- `dropWhile` never lengthens a list. -/
theorem length_dropWhile_le' (p : α → Bool) (l : List α) :
    (l.dropWhile p).length ≤ l.length := by
  induction l with
  | nil => simp
  | cons x xs ih =>
    rw [List.dropWhile_cons]
    split
    · exact le_trans ih (by simp)
    · exact le_refl _

/-- Dropping a prefix-predicate run from an extended list leaves at least as
much as from the suffix alone. -/
theorem length_dropWhile_append_ge (p : α → Bool) (xs ys : List α) :
    (ys.dropWhile p).length ≤ ((xs ++ ys).dropWhile p).length := by
  induction xs with
  | nil => simp
  | cons x xs ih =>
    rw [List.cons_append, List.dropWhile_cons]
    split
    · exact ih
    · simp only [List.length_cons, List.length_append]
      have := length_dropWhile_le' p ys
      omega

/-- Stripping a string that begins with a non-whitespace character and whose
block `mt` additionally ends with one keeps at least `mt` characters. -/
theorem pyStrip_append_length_ge {mt mid : List Char}
    (hhead : ∀ c, mt.head? = some c → pySpace c = false)
    (hlast : ∀ c, mt.getLast? = some c → pySpace c = false)
    (hne : mt ≠ []) :
    mt.length ≤ (pyStrip (mt ++ mid)).length := by
  obtain ⟨c, cs, rfl⟩ : ∃ c cs, mt = c :: cs := by
    cases mt with
    | nil => cases hne rfl
    | cons c cs => exact ⟨c, cs, rfl⟩
  have hc : pySpace c = false := hhead c rfl
  unfold pyStrip
  rw [List.cons_append, List.dropWhile_cons_of_neg (by simp [hc]),
    List.length_reverse, ← List.cons_append, List.reverse_append]
  have h1 : (c :: cs).reverse.dropWhile pySpace = (c :: cs).reverse := by
    cases hr : (c :: cs).reverse with
    | nil => simp at hr
    | cons d ds2 =>
      have hd : (c :: cs).getLast? = some d := by
        rw [← List.head?_reverse, hr]
        rfl
      rw [List.dropWhile_cons_of_neg (by simp [hlast d hd])]
  calc (c :: cs).length = ((c :: cs).reverse.dropWhile pySpace).length := by
        rw [h1, List.length_reverse]
    _ ≤ ((mid.reverse ++ (c :: cs).reverse).dropWhile pySpace).length :=
        length_dropWhile_append_ge pySpace mid.reverse (c :: cs).reverse

/-- Stripping changes nothing when both ends are non-whitespace. -/
theorem pyStrip_eq_self {l : List Char}
    (hhead : ∀ c, l.head? = some c → pySpace c = false)
    (hlast : ∀ c, l.getLast? = some c → pySpace c = false) : pyStrip l = l := by
  unfold pyStrip
  have h1 : l.dropWhile pySpace = l := by
    cases l with
    | nil => rfl
    | cons c cs => rw [List.dropWhile_cons_of_neg (by simp [hhead c rfl])]
  rw [h1]
  have h2 : l.reverse.dropWhile pySpace = l.reverse := by
    cases hr : l.reverse with
    | nil => rfl
    | cons d ds2 =>
      have hd : l.getLast? = some d := by
        rw [← List.head?_reverse, hr]
        rfl
      rw [List.dropWhile_cons_of_neg (by simp [hlast d hd])]
  rw [h2, List.reverse_reverse]

/-- The first chunk of the extraction loop keeps at least its heading: the
chunk's slice starts at the heading's `start_pos`, extends at least to its
`end_pos`, and stripping cannot remove matched-heading characters. -/
theorem chunk_head_facts (text : List Char) (h : Occ) (e : Nat)
    (hspec : OccSpec text 0 h) (hee : h.end_pos ≤ e) :
    h.match_text.length ≤ (pyStrip (slice text h.start_pos e)).length := by
  obtain ⟨-, ho2, ho3, ho4, ho5, ho6, -⟩ := hspec
  simp only [Nat.zero_add, Nat.sub_zero] at ho3 ho4
  have hmtne : h.match_text ≠ [] := by
    rw [ho4]
    intro hcontra
    have hlen := congrArg List.length hcontra
    simp only [List.length_take, List.length_drop, List.length_nil] at hlen
    omega
  have hsplitslice : slice text h.start_pos e =
      h.match_text ++ ((text.drop h.start_pos).drop (h.end_pos - h.start_pos)).take
        (e - h.end_pos) := by
    unfold slice
    have harith : e - h.start_pos =
        (h.end_pos - h.start_pos) + (e - h.end_pos) := by omega
    rw [harith, List.take_add, ← ho4]
  rw [hsplitslice]
  exact pyStrip_append_length_ge ho5 ho6 hmtne

/-- Per-chunk facts of the extraction loop, given the scan invariants of the
heading list: `char_count` is the content's length and the content retains at
least the heading's characters even after stripping. -/
theorem chunksAux_spec (text : List Char) : ∀ hs : List Occ,
    (∀ o ∈ hs, OccSpec text 0 o) →
    hs.Chain' (fun o1 o2 => o1.end_pos < o2.start_pos) →
    ∀ c ∈ chunksAux text hs,
      c.char_count = c.content.length ∧ c.heading.length ≤ c.content.length := by
  intro hs
  induction hs with
  | nil => intro _ _ c hc; cases hc
  | cons h rest ih =>
    intro hspec hchain c hc
    have hh := hspec h (List.mem_cons_self _ _)
    cases rest with
    | nil =>
      have hstep : chunksAux text [h] = [⟨h.planet, h.house, h.match_text,
          pyStrip (slice text h.start_pos text.length),
          (pyStrip (slice text h.start_pos text.length)).length⟩] := rfl
      rw [hstep] at hc
      rcases List.mem_cons.mp hc with rfl | htail
      · refine ⟨rfl, ?_⟩
        show h.match_text.length ≤ (pyStrip (slice text h.start_pos text.length)).length
        exact chunk_head_facts text h text.length hh (by
          have := hh.2.2.1
          omega)
      · cases htail
    | cons h2 r2 =>
      have hstep : chunksAux text (h :: h2 :: r2) = ⟨h.planet, h.house, h.match_text,
          pyStrip (slice text h.start_pos h2.start_pos),
          (pyStrip (slice text h.start_pos h2.start_pos)).length⟩ ::
          chunksAux text (h2 :: r2) := rfl
      rw [hstep] at hc
      rcases List.mem_cons.mp hc with rfl | htail
      · refine ⟨rfl, ?_⟩
        show h.match_text.length ≤ (pyStrip (slice text h.start_pos h2.start_pos)).length
        exact chunk_head_facts text h h2.start_pos hh
          (le_of_lt (List.chain'_cons.mp hchain).1)
      · exact ih (fun o ho => hspec o (List.mem_cons_of_mem _ ho))
          (List.chain'_cons.mp hchain).2 c htail

/-- C8: every chunk produced by `extract_chunks` from any document has
`char_count` equal to the length of its (trimmed) content, and the content is
at least as long as the chunk's own heading — the trimming never eats into the
heading because the matched heading text starts at the chunk's start offset
and both of its ends are non-whitespace. -/
theorem extract_chunks_content (text : List Char) :
    ∀ c ∈ extract_chunks text,
      c.heading.length ≤ c.content.length ∧ c.char_count = c.content.length := by
  intro c hc
  have hfacts := chunksAux_spec text (findHeadings text) (findHeadings_spec text).1
    (findHeadings_spec text).2 c hc
  exact ⟨hfacts.2, hfacts.1⟩

/-- C8 witness: the concrete chunk extracted from
`"Sun in 1st House\ngood\n\n"` (whose trailing blank lines are trimmed). -/
theorem extract_chunks_content_witness :
    ((⟨"Sun", 1, "Sun in 1st House".data, "Sun in 1st House\ngood".data, 21⟩ : Chunk) ∈
        extract_chunks "Sun in 1st House\ngood\n\n".data) ∧
      ("Sun in 1st House".data.length ≤ "Sun in 1st House\ngood".data.length ∧
        (21 : Nat) = "Sun in 1st House\ngood".data.length) :=
  ⟨by decide, extract_chunks_content "Sun in 1st House\ngood\n\n".data
    ⟨"Sun", 1, "Sun in 1st House".data, "Sun in 1st House\ngood".data, 21⟩ (by decide)⟩

/-! ## Claim C2: chunk spans -/

/-- One span per heading. -/
theorem chunkSpans_length (text : List Char) :
    ∀ hs : List Occ, (chunkSpans text hs).length = hs.length := by
  intro hs
  induction hs with
  | nil => rfl
  | cons h rest ih =>
    cases rest with
    | nil => rfl
    | cons h2 r2 => simpa [chunkSpans] using ih

/-- One chunk per heading. -/
theorem chunksAux_length (text : List Char) :
    ∀ hs : List Occ, (chunksAux text hs).length = hs.length := by
  intro hs
  induction hs with
  | nil => rfl
  | cons h rest ih =>
    cases rest with
    | nil => rfl
    | cons h2 r2 => simpa [chunksAux] using ih

/-- The `i`-th span runs from the `i`-th heading's start offset to the next
heading's start offset, or to the end of the document for the last heading. -/
theorem chunkSpans_get? (text : List Char) : ∀ (hs : List Occ) (i : Nat) (h : Occ),
    hs[i]? = some h →
    (chunkSpans text hs)[i]? =
      some (h.start_pos, match hs[i + 1]? with
        | some h2 => h2.start_pos
        | none => text.length) := by
  intro hs
  induction hs with
  | nil => intro i h hi; simp at hi
  | cons h0 rest ih =>
    intro i h hi
    cases rest with
    | nil =>
      cases i with
      | zero =>
        simp only [List.getElem?_cons_zero, Option.some.injEq] at hi
        subst hi
        have hcons : chunkSpans text [h0] = [(h0.start_pos, text.length)] := rfl
        rw [hcons]
        simp
      | succ j => simp at hi
    | cons h2 r2 =>
      have hcons : chunkSpans text (h0 :: h2 :: r2) =
          (h0.start_pos, h2.start_pos) :: chunkSpans text (h2 :: r2) := rfl
      cases i with
      | zero =>
        simp only [List.getElem?_cons_zero, Option.some.injEq] at hi
        subst hi
        rw [hcons]
        simp
      | succ j =>
        simp only [List.getElem?_cons_succ] at hi
        rw [hcons, List.getElem?_cons_succ, ih j h hi, List.getElem?_cons_succ,
          List.getElem?_cons_succ, List.getElem?_cons_succ]

/-- The `i`-th chunk's content is the stripped slice of the `i`-th span, and
its `char_count` is the content's length. -/
theorem chunksAux_content (text : List Char) : ∀ (hs : List Occ) (i : Nat)
    (c : Chunk) (sp : Nat × Nat), (chunksAux text hs)[i]? = some c →
    (chunkSpans text hs)[i]? = some sp →
    c.content = pyStrip (slice text sp.1 sp.2) ∧ c.char_count = c.content.length := by
  intro hs
  induction hs with
  | nil => intro i c sp hc _; simp [chunksAux] at hc
  | cons h0 rest ih =>
    intro i c sp hc hsp
    cases rest with
    | nil =>
      have hc0 : chunksAux text [h0] = [⟨h0.planet, h0.house, h0.match_text,
          pyStrip (slice text h0.start_pos text.length),
          (pyStrip (slice text h0.start_pos text.length)).length⟩] := rfl
      have hs0 : chunkSpans text [h0] = [(h0.start_pos, text.length)] := rfl
      rw [hc0] at hc
      rw [hs0] at hsp
      cases i with
      | zero =>
        simp only [List.getElem?_cons_zero, Option.some.injEq] at hc hsp
        subst hc
        subst hsp
        exact ⟨rfl, rfl⟩
      | succ j => simp at hc
    | cons h2 r2 =>
      have hc0 : chunksAux text (h0 :: h2 :: r2) = ⟨h0.planet, h0.house, h0.match_text,
          pyStrip (slice text h0.start_pos h2.start_pos),
          (pyStrip (slice text h0.start_pos h2.start_pos)).length⟩ ::
          chunksAux text (h2 :: r2) := rfl
      have hs0 : chunkSpans text (h0 :: h2 :: r2) =
          (h0.start_pos, h2.start_pos) :: chunkSpans text (h2 :: r2) := rfl
      rw [hc0] at hc
      rw [hs0] at hsp
      cases i with
      | zero =>
        simp only [List.getElem?_cons_zero, Option.some.injEq] at hc hsp
        subst hc
        subst hsp
        exact ⟨rfl, rfl⟩
      | succ j =>
        simp only [List.getElem?_cons_succ] at hc hsp
        exact ih j c sp hc hsp

/-- Every span's left endpoint is the start offset of one of the headings. -/
theorem chunkSpans_fst (text : List Char) : ∀ hs : List Occ,
    ∀ sp ∈ chunkSpans text hs, ∃ o ∈ hs, sp.1 = o.start_pos := by
  intro hs
  induction hs with
  | nil => intro sp hsp; cases hsp
  | cons h rest ih =>
    intro sp hsp
    cases rest with
    | nil =>
      have hcons : chunkSpans text [h] = [(h.start_pos, text.length)] := rfl
      rw [hcons] at hsp
      rcases List.mem_cons.mp hsp with rfl | htail
      · exact ⟨h, List.mem_cons_self _ _, rfl⟩
      · cases htail
    | cons h2 r2 =>
      have hcons : chunkSpans text (h :: h2 :: r2) =
          (h.start_pos, h2.start_pos) :: chunkSpans text (h2 :: r2) := rfl
      rw [hcons] at hsp
      rcases List.mem_cons.mp hsp with rfl | htail
      · exact ⟨h, List.mem_cons_self _ _, rfl⟩
      · obtain ⟨o, ho, heq⟩ := ih sp htail
        exact ⟨o, List.mem_cons_of_mem _ ho, heq⟩

/-- In a strictly ordered heading list, the head's start offset is minimal. -/
theorem head_start_le (hs : List Occ)
    (hb : ∀ o ∈ hs, o.start_pos < o.end_pos)
    (hc : hs.Chain' (fun o1 o2 => o1.end_pos < o2.start_pos)) :
    ∀ h0, hs.head? = some h0 → ∀ o ∈ hs, h0.start_pos ≤ o.start_pos := by
  induction hs with
  | nil => intro h0 hh; cases hh
  | cons h rest ih =>
    intro h0 hh o ho
    cases hh
    rcases List.mem_cons.mp ho with rfl | htail
    · exact le_refl _
    · cases rest with
      | nil => cases htail
      | cons h2 r2 =>
        have hrel : h.end_pos < h2.start_pos := (List.chain'_cons.mp hc).1
        have hb0 : h.start_pos < h.end_pos := hb h (List.mem_cons_self _ _)
        have hrec := ih (fun o2 ho2 => hb o2 (List.mem_cons_of_mem _ ho2))
          (List.chain'_cons'.mp hc).2 h2 rfl o htail
        omega

/-- Coverage and disjointness of the spans: for a bounded, strictly ordered
heading list, the spans cover exactly `[first heading's start, document end)`
and are pairwise disjoint. -/
theorem chunkSpans_cover (text : List Char) : ∀ hs : List Occ,
    (∀ o ∈ hs, o.start_pos < o.end_pos ∧ o.end_pos ≤ text.length) →
    hs.Chain' (fun o1 o2 => o1.end_pos < o2.start_pos) →
    (∀ p : Nat, (∃ sp ∈ chunkSpans text hs, sp.1 ≤ p ∧ p < sp.2) ↔
      ∃ h0, hs.head? = some h0 ∧ h0.start_pos ≤ p ∧ p < text.length) ∧
    (chunkSpans text hs).Pairwise (fun a b => a.2 ≤ b.1) := by
  intro hs
  induction hs with
  | nil =>
    intro _ _
    constructor
    · intro p
      constructor
      · rintro ⟨sp, hsp, -⟩
        cases hsp
      · rintro ⟨h0, hh0, -⟩
        cases hh0
    · exact List.Pairwise.nil
  | cons h rest ih =>
    intro hb hc
    have hbh := hb h (List.mem_cons_self _ _)
    cases rest with
    | nil =>
      have hcons : chunkSpans text [h] = [(h.start_pos, text.length)] := rfl
      rw [hcons]
      constructor
      · intro p
        constructor
        · rintro ⟨sp, hsp, hp1, hp2⟩
          rcases List.mem_cons.mp hsp with rfl | htail
          · exact ⟨h, rfl, hp1, hp2⟩
          · cases htail
        · rintro ⟨h0, hh0, hp1, hp2⟩
          cases hh0
          exact ⟨(h.start_pos, text.length), List.mem_cons_self _ _, hp1, hp2⟩
      · simp
    | cons h2 r2 =>
      have hrel : h.end_pos < h2.start_pos := (List.chain'_cons.mp hc).1
      have hb2 := hb h2 (List.mem_cons_of_mem _ (List.mem_cons_self _ _))
      obtain ⟨ihcov, ihpw⟩ := ih (fun o ho => hb o (List.mem_cons_of_mem _ ho))
        (List.chain'_cons'.mp hc).2
      have hcons : chunkSpans text (h :: h2 :: r2) =
          (h.start_pos, h2.start_pos) :: chunkSpans text (h2 :: r2) := rfl
      rw [hcons]
      constructor
      · intro p
        constructor
        · rintro ⟨sp, hsp, hp1, hp2⟩
          rcases List.mem_cons.mp hsp with rfl | htail
          · refine ⟨h, rfl, hp1, ?_⟩
            simp only [] at hp2
            omega
          · obtain ⟨h0, hh0, hq1, hq2⟩ := (ihcov p).mp ⟨sp, htail, hp1, hp2⟩
            cases hh0
            exact ⟨h, rfl, by omega, hq2⟩
        · rintro ⟨h0, hh0, hp1, hp2⟩
          cases hh0
          by_cases hcase : p < h2.start_pos
          · exact ⟨(h.start_pos, h2.start_pos), List.mem_cons_self _ _, hp1, hcase⟩
          · obtain ⟨sp, hsp, hq1, hq2⟩ := (ihcov p).mpr ⟨h2, rfl, by omega, hp2⟩
            exact ⟨sp, List.mem_cons_of_mem _ hsp, hq1, hq2⟩
      · refine List.Pairwise.cons ?_ ihpw
        intro sp hsp
        obtain ⟨o, ho, heq⟩ := chunkSpans_fst text (h2 :: r2) sp hsp
        have hmin := head_start_le (h2 :: r2)
          (fun o2 ho2 => (hb o2 (List.mem_cons_of_mem _ ho2)).1)
          (List.chain'_cons'.mp hc).2 h2 rfl o ho
        show h2.start_pos ≤ sp.1
        omega

/-- C2: for every document, `extract_chunks` yields exactly one chunk per
heading occurrence (and the empty list when there are none, as a valid
outcome); the `i`-th chunk's span runs from the `i`-th occurrence's start
offset to the next occurrence's start offset, or to the document end for the
last occurrence; the chunk's content is the (stripped) slice of that span;
and the spans are pairwise non-overlapping and cover the document from the
first heading's start to the document end with no gaps. -/
theorem extract_chunks_spans (text : List Char) :
    (extract_chunks text).length = (findHeadings text).length ∧
    (findHeadings text = [] → extract_chunks text = []) ∧
    (∀ (i : Nat) (h : Occ), (findHeadings text)[i]? = some h →
      (chunkSpans text (findHeadings text))[i]? =
        some (h.start_pos, match (findHeadings text)[i + 1]? with
          | some h2 => h2.start_pos
          | none => text.length)) ∧
    (∀ (i : Nat) (c : Chunk) (sp : Nat × Nat), (extract_chunks text)[i]? = some c →
      (chunkSpans text (findHeadings text))[i]? = some sp →
      c.content = pyStrip (slice text sp.1 sp.2)) ∧
    (chunkSpans text (findHeadings text)).Pairwise (fun a b => a.2 ≤ b.1) ∧
    (∀ p : Nat, (∃ sp ∈ chunkSpans text (findHeadings text), sp.1 ≤ p ∧ p < sp.2) ↔
      ∃ h0, (findHeadings text).head? = some h0 ∧ h0.start_pos ≤ p ∧ p < text.length) := by
  have hspec := (findHeadings_spec text).1
  have hchain := (findHeadings_spec text).2
  have hbounds : ∀ o ∈ findHeadings text, o.start_pos < o.end_pos ∧
      o.end_pos ≤ text.length := by
    intro o ho
    obtain ⟨-, h2, h3, -, -, -, -⟩ := hspec o ho
    exact ⟨h2, by simpa using h3⟩
  obtain ⟨hcov, hpw⟩ := chunkSpans_cover text (findHeadings text) hbounds hchain
  refine ⟨chunksAux_length text _, ?_, ?_, ?_, hpw, hcov⟩
  · intro hnil
    unfold extract_chunks
    rw [hnil]
    rfl
  · intro i h hi
    exact chunkSpans_get? text _ i h hi
  · intro i c sp hc hsp
    exact (chunksAux_content text _ i c sp hc hsp).1

/-- C2 witness: the instantiation of the span theorem at a concrete two-chunk
document. -/
theorem extract_chunks_spans_witness :
    (extract_chunks "Sun in 1st House\nA\nMoon in 3rd House\nB".data).length =
        (findHeadings "Sun in 1st House\nA\nMoon in 3rd House\nB".data).length ∧
      (findHeadings "Sun in 1st House\nA\nMoon in 3rd House\nB".data = [] →
        extract_chunks "Sun in 1st House\nA\nMoon in 3rd House\nB".data = []) ∧
      (∀ (i : Nat) (h : Occ),
        (findHeadings "Sun in 1st House\nA\nMoon in 3rd House\nB".data)[i]? = some h →
        (chunkSpans "Sun in 1st House\nA\nMoon in 3rd House\nB".data
            (findHeadings "Sun in 1st House\nA\nMoon in 3rd House\nB".data))[i]? =
          some (h.start_pos,
            match (findHeadings "Sun in 1st House\nA\nMoon in 3rd House\nB".data)[i + 1]? with
            | some h2 => h2.start_pos
            | none => "Sun in 1st House\nA\nMoon in 3rd House\nB".data.length)) ∧
      (∀ (i : Nat) (c : Chunk) (sp : Nat × Nat),
        (extract_chunks "Sun in 1st House\nA\nMoon in 3rd House\nB".data)[i]? = some c →
        (chunkSpans "Sun in 1st House\nA\nMoon in 3rd House\nB".data
            (findHeadings "Sun in 1st House\nA\nMoon in 3rd House\nB".data))[i]? = some sp →
        c.content = pyStrip (slice "Sun in 1st House\nA\nMoon in 3rd House\nB".data sp.1 sp.2)) ∧
      (chunkSpans "Sun in 1st House\nA\nMoon in 3rd House\nB".data
          (findHeadings "Sun in 1st House\nA\nMoon in 3rd House\nB".data)).Pairwise
        (fun a b => a.2 ≤ b.1) ∧
      (∀ p : Nat,
        (∃ sp ∈ chunkSpans "Sun in 1st House\nA\nMoon in 3rd House\nB".data
            (findHeadings "Sun in 1st House\nA\nMoon in 3rd House\nB".data),
          sp.1 ≤ p ∧ p < sp.2) ↔
        ∃ h0, (findHeadings "Sun in 1st House\nA\nMoon in 3rd House\nB".data).head? = some h0 ∧
          h0.start_pos ≤ p ∧ p < "Sun in 1st House\nA\nMoon in 3rd House\nB".data.length) :=
  extract_chunks_spans "Sun in 1st House\nA\nMoon in 3rd House\nB".data

/-! ## Claim C10: the ingestion path never bounds the house number -/

/-- Decimal digits are not whitespace. -/
theorem pyDigit_not_space {c : Char} (h : pyDigit c = true) : pySpace c = false := by
  simp only [pyDigit, Bool.and_eq_true, decide_eq_true_eq] at h
  simp only [pySpace, Bool.or_eq_false_iff, beq_eq_false_iff_ne, ne_eq]
  omega

/-- The heading pattern accepts any nonempty digit run as the ordinal: the
full match on `"Sun in <digits>th House"` succeeds with house = the digits'
decimal value, whatever that value is. -/
theorem matchHeadingAt_sun (ds : List Char) (hne : ds ≠ [])
    (hdig : ∀ c ∈ ds, pyDigit c = true) :
    matchHeadingAt ("Sun in ".data ++ (ds ++ "th House".data)) =
      some ("Sun", digitsVal ds, []) := by
  obtain ⟨d, ds2, rfl⟩ : ∃ d ds2, ds = d :: ds2 := by
    cases ds with
    | nil => cases hne rfl
    | cons d ds2 => exact ⟨d, ds2, rfl⟩
  have hd : pyDigit d = true := hdig d (List.mem_cons_self _ _)
  have hdns : pySpace d = false := pyDigit_not_space hd
  have h1 : matchPlanet planetNames ("Sun in ".data ++ ((d :: ds2) ++ "th House".data)) =
      some ("Sun", ' ' :: 'i' :: 'n' :: ' ' :: ((d :: ds2) ++ "th House".data)) := rfl
  have h2 : ws1 (' ' :: 'i' :: 'n' :: ' ' :: ((d :: ds2) ++ "th House".data)) =
      some ('i' :: 'n' :: ' ' :: ((d :: ds2) ++ "th House".data)) := rfl
  have h3 : matchCI "in".data ('i' :: 'n' :: ' ' :: ((d :: ds2) ++ "th House".data)) =
      some (' ' :: ((d :: ds2) ++ "th House".data)) := rfl
  have h4 : ws1 (' ' :: ((d :: ds2) ++ "th House".data)) =
      some ((d :: ds2) ++ "th House".data) := by
    rw [ws1, if_pos (by decide), List.cons_append,
      List.dropWhile_cons_of_neg (by simp [hdns])]
  have h5 : matchOrdinal ((d :: ds2) ++ "th House".data) =
      some (digitsVal (d :: ds2), "th House".data) := by
    rw [List.cons_append, matchOrdinal, if_pos hd, ← List.cons_append,
      List.takeWhile_append_of_pos hdig, List.dropWhile_append_of_pos hdig,
      show "th House".data.takeWhile pyDigit = [] from rfl,
      show "th House".data.dropWhile pyDigit = "th House".data from rfl,
      List.append_nil]
  have h6 : ordSuffix ("th House".data) = ' ' :: "House".data := rfl
  have h7 : ws1 (' ' :: "House".data) = some ("House".data) := rfl
  have h8 : matchCI "house".data "House".data = some [] := rfl
  simp only [matchHeadingAt, Option.bind_eq_bind, h1, Option.some_bind, h2, h3, h4, h5,
    h6, h7, h8]

/-- The document `"Sun in <digits>th House"` yields exactly one heading
occurrence spanning the whole document, with house = the digits' value. -/
theorem findHeadings_sun (ds : List Char) (hne : ds ≠ [])
    (hdig : ∀ c ∈ ds, pyDigit c = true) :
    findHeadings ("Sun in ".data ++ (ds ++ "th House".data)) =
      [⟨"Sun", digitsVal ds, 0, ("Sun in ".data ++ (ds ++ "th House".data)).length,
        "Sun in ".data ++ (ds ++ "th House".data)⟩] := by
  have htext : "Sun in ".data ++ (ds ++ "th House".data) =
      'S' :: 'u' :: 'n' :: ' ' :: 'i' :: 'n' :: ' ' :: (ds ++ "th House".data) := rfl
  have hm := matchHeadingAt_sun ds hne hdig
  rw [htext] at hm ⊢
  unfold findHeadings
  simp only [scanAux, hm, dropLine, scanAux_nil, List.length_nil, Nat.sub_zero,
    Nat.zero_add, List.take_length]

/-- The chunk extracted from `"Sun in <digits>th House"`: the whole document
as both heading span and content (nothing is stripped), with the unbounded
house value carried through. -/
theorem extract_chunks_sun (ds : List Char) (hne : ds ≠ [])
    (hdig : ∀ c ∈ ds, pyDigit c = true) :
    extract_chunks ("Sun in ".data ++ (ds ++ "th House".data)) =
      [⟨"Sun", digitsVal ds, "Sun in ".data ++ (ds ++ "th House".data),
        "Sun in ".data ++ (ds ++ "th House".data),
        ("Sun in ".data ++ (ds ++ "th House".data)).length⟩] := by
  unfold extract_chunks
  rw [findHeadings_sun ds hne hdig]
  have hstep : chunksAux ("Sun in ".data ++ (ds ++ "th House".data))
      [⟨"Sun", digitsVal ds, 0, ("Sun in ".data ++ (ds ++ "th House".data)).length,
        "Sun in ".data ++ (ds ++ "th House".data)⟩] =
      [⟨"Sun", digitsVal ds, "Sun in ".data ++ (ds ++ "th House".data),
        pyStrip (slice ("Sun in ".data ++ (ds ++ "th House".data)) 0
          ("Sun in ".data ++ (ds ++ "th House".data)).length),
        (pyStrip (slice ("Sun in ".data ++ (ds ++ "th House".data)) 0
          ("Sun in ".data ++ (ds ++ "th House".data)).length)).length⟩] := rfl
  rw [hstep]
  have hslice : slice ("Sun in ".data ++ (ds ++ "th House".data)) 0
      ("Sun in ".data ++ (ds ++ "th House".data)).length =
      "Sun in ".data ++ (ds ++ "th House".data) := by
    unfold slice
    simp
  rw [hslice]
  have hstrip : pyStrip ("Sun in ".data ++ (ds ++ "th House".data)) =
      "Sun in ".data ++ (ds ++ "th House".data) := by
    apply pyStrip_eq_self
    · intro c hc
      have hh : ("Sun in ".data ++ (ds ++ "th House".data)).head? = some 'S' := rfl
      rw [hh] at hc
      cases hc
      decide
    · intro c hc
      have hl : ("Sun in ".data ++ (ds ++ "th House".data)).getLast? = some 'e' := by
        rw [getLast?_append_right (by simp), getLast?_append_right (by simp)]
        rfl
      rw [hl] at hc
      cases hc
      decide
  rw [hstrip]

/-- One chunk uploads as one vector with id
`planet.lower() ++ "_house_" ++ str(house)` and `total_uploaded = 1`; no
house-bound check happens anywhere on the way. -/
theorem upsert_single (pl : String) (hse : Nat) (hd ct : List Char) (cc : Nat)
    (emb : List ℚ) :
    upsert_chunks [⟨pl, hse, hd, ct, cc, emb⟩] 100 =
      ([⟨pyLowerStr pl ++ "_house_" ++ toString hse, emb, pl, hse, hd, ct, cc⟩], 1) := by
  unfold upsert_chunks
  simp [chunksOf]

/-- `natStr` renders a nonempty string. -/
theorem natStr_ne_nil (n : Nat) : natStr n ≠ [] := by
  by_cases h0 : n = 0
  · rw [natStr, if_pos h0]
    simp
  · rw [natStr, if_neg h0]
    simp only [ne_eq, List.reverse_eq_nil_iff, List.map_eq_nil_iff]
    exact Nat.digits_ne_nil_iff_ne_zero.mpr h0

/-- `natStr` renders decimal digits only. -/
theorem natStr_digits (n : Nat) : ∀ c ∈ natStr n, pyDigit c = true := by
  intro c hc
  by_cases h0 : n = 0
  · rw [natStr, if_pos h0] at hc
    simp only [List.mem_singleton] at hc
    subst hc
    decide
  · rw [natStr, if_neg h0] at hc
    rw [List.mem_reverse, List.mem_map] at hc
    obtain ⟨d, hd, rfl⟩ := hc
    have hlt : d < 10 := Nat.digits_lt_base (by norm_num) hd
    interval_cases d <;> decide

/-- The digit value of a digit's character. -/
theorem digitChar10_val {d : Nat} (h : d < 10) : (digitChar10 d).toNat - 48 = d := by
  interval_cases d <;> decide

/-- `natStr` renders the decimal numeral of `n`: parsing it back with
`digitsVal` (Python's `int`) recovers `n`. -/
theorem digitsVal_natStr (n : Nat) : digitsVal (natStr n) = n := by
  by_cases h0 : n = 0
  · subst h0
    decide
  · rw [natStr, if_neg h0]
    unfold digitsVal
    rw [List.foldl_reverse]
    have key : ∀ L : List Nat, (∀ d ∈ L, d < 10) →
        (L.map digitChar10).foldr (fun x y => 10 * y + (x.toNat - 48)) 0 =
          Nat.ofDigits 10 L := by
      intro L
      induction L with
      | nil => intro _; simp [Nat.ofDigits]
      | cons d L2 ih =>
        intro hall
        rw [List.map_cons, List.foldr_cons,
          ih (fun x hx => hall x (List.mem_cons_of_mem _ hx)), Nat.ofDigits_cons,
          digitChar10_val (hall d (List.mem_cons_self _ _))]
        ring
    rw [key _ (fun d hd => Nat.digits_lt_base (by norm_num) hd), Nat.ofDigits_digits]

/-- C10: the ingestion path never enforces the house range `[1, 12]`.  For
every natural number `n`, the document `"Sun in <n>th House"` (with `<n>`
rendered in decimal) produces a heading occurrence and a chunk with
`house = n`, and `upsert_chunks` stores that chunk under the key
`"sun_house_<n>"` and reports it uploaded — no operation between parsing and
storage validates the house bound. -/
theorem ingestion_never_validates_house (n : Nat) :
    findHeadings ("Sun in ".data ++ (natStr n ++ "th House".data)) =
      [⟨"Sun", n, 0, ("Sun in ".data ++ (natStr n ++ "th House".data)).length,
        "Sun in ".data ++ (natStr n ++ "th House".data)⟩] ∧
    extract_chunks ("Sun in ".data ++ (natStr n ++ "th House".data)) =
      [⟨"Sun", n, "Sun in ".data ++ (natStr n ++ "th House".data),
        "Sun in ".data ++ (natStr n ++ "th House".data),
        ("Sun in ".data ++ (natStr n ++ "th House".data)).length⟩] ∧
    (∀ (heading content : List Char) (cc : Nat) (emb : List ℚ),
      upsert_chunks [⟨"Sun", n, heading, content, cc, emb⟩] 100 =
        ([⟨"sun_house_" ++ toString n, emb, "Sun", n, heading, content, cc⟩], 1)) := by
  refine ⟨?_, ?_, ?_⟩
  · have hh := findHeadings_sun (natStr n) (natStr_ne_nil n) (natStr_digits n)
    rw [digitsVal_natStr] at hh
    exact hh
  · have hh := extract_chunks_sun (natStr n) (natStr_ne_nil n) (natStr_digits n)
    rw [digitsVal_natStr] at hh
    exact hh
  · intro heading content cc emb
    have hh := upsert_single "Sun" n heading content cc emb
    rw [show pyLowerStr "Sun" = "sun" from by decide,
      show (("sun" : String) ++ "_house_") = "sun_house_" from rfl] at hh
    exact hh

/-- C10 witness: the instantiation at `n = 13` (a house outside `[1, 12]`),
with the rendered document shown to be literally `"Sun in 13th House"`. -/
theorem ingestion_never_validates_house_witness :
    (findHeadings ("Sun in ".data ++ (natStr 13 ++ "th House".data)) =
      [⟨"Sun", 13, 0, ("Sun in ".data ++ (natStr 13 ++ "th House".data)).length,
        "Sun in ".data ++ (natStr 13 ++ "th House".data)⟩] ∧
    extract_chunks ("Sun in ".data ++ (natStr 13 ++ "th House".data)) =
      [⟨"Sun", 13, "Sun in ".data ++ (natStr 13 ++ "th House".data),
        "Sun in ".data ++ (natStr 13 ++ "th House".data),
        ("Sun in ".data ++ (natStr 13 ++ "th House".data)).length⟩] ∧
    (∀ (heading content : List Char) (cc : Nat) (emb : List ℚ),
      upsert_chunks [⟨"Sun", 13, heading, content, cc, emb⟩] 100 =
        ([⟨"sun_house_" ++ toString 13, emb, "Sun", 13, heading, content, cc⟩], 1))) ∧
    natStr 13 = ['1', '3'] ∧
    "Sun in ".data ++ (natStr 13 ++ "th House".data) = "Sun in 13th House".data := by
  have hds : Nat.digits 10 13 = [3, 1] := by
    rw [Nat.digits_def' (by norm_num : (1:ℕ) < 10) (by norm_num),
      Nat.digits_def' (by norm_num : (1:ℕ) < 10) (by norm_num)]
    norm_num
  have hnat : natStr 13 = ['1', '3'] := by
    rw [natStr, if_neg (by norm_num), hds]
    rfl
  refine ⟨ingestion_never_validates_house 13, hnat, ?_⟩
  rw [hnat]
  rfl

end VastuAi
